import Mathlib

/-!
# dumplings: thread-safe queue and thread pool

A shallow embedding of `include/dumplings.h`.

* `dumplings.thread_safe.queue` is the mutex-protected FIFO.  Every member
  function runs under the queue's mutex, so each one is a single atomic
  transition on the backing `std::queue`, embedded as a list whose head is
  the front of the queue.
* `dumplings.thread_pool` is the worker pool.  Its threads are interleaved
  explicitly: a schedule is a list of atomic actions, and every thread
  (each worker, the caller of `stop()`, the caller of `wait()`) carries a
  program counter that says which statement of its function it executes
  next.
-/

namespace dumplings

/-- Exceptions that travel through the library: the two standard exceptions
the header throws itself, the `std::future_error` a promise raises when it is
satisfied twice, and whatever a user callable throws. -/
inductive exception where
  | out_of_range
  | runtime_error
  | future_error
  | user (code : Nat)
  deriving DecidableEq, Repr

deriving instance DecidableEq for Except

namespace thread_safe

/-- The class `thread_safe::queue<_T>`: the member `mQueue` (front of the
`std::queue` first).  The mutex `mMutex` is what makes each member function
below one atomic step. -/
structure queue (α : Type) where
  mQueue : List α
  deriving DecidableEq, Repr

namespace queue

variable {α : Type}

/-- Default constructor `queue() = default`. -/
def mk_empty : queue α := ⟨[]⟩

/-- Member `push`: `mQueue.push(element)` appends at the back. -/
def push (q : queue α) (element : α) : queue α :=
  ⟨q.mQueue ++ [element]⟩

/-- Member `pop`: removes the front when the queue is not empty, otherwise
does nothing. -/
def pop (q : queue α) : queue α :=
  match q.mQueue with
  | [] => q
  | _ :: rest => ⟨rest⟩

/-- Member `front`: the front element, or `std::out_of_range`. -/
def front (q : queue α) : Except exception α :=
  match q.mQueue with
  | x :: _ => .ok x
  | [] => .error .out_of_range

/-- Member `front_pop`.  The outcome is the returned element or the thrown
exception, paired with the queue afterwards.  The local `resValue` is only
returned on the branch that assigned the front element to it; the other
branch leaves by `throw`. -/
def front_pop (q : queue α) : Except exception α × queue α :=
  match q.mQueue with
  | x :: rest => (.ok x, ⟨rest⟩)
  | [] => (.error .out_of_range, q)

/-- Member `empty`. -/
def empty (q : queue α) : Bool := q.mQueue.isEmpty

/-- Member `size`. -/
def size (q : queue α) : Nat := q.mQueue.length

/-- Member `swap`: exchanges the backing sequences of `this` and `rhs`;
returns the pair (`this` afterwards, `rhs` afterwards). -/
def swap (q rhs : queue α) : queue α × queue α :=
  (⟨rhs.mQueue⟩, ⟨q.mQueue⟩)

/-- Pushing the elements of a list one after the other, first element first. -/
def push_all (q : queue α) : List α → queue α
  | [] => q
  | x :: xs => push_all (q.push x) xs

/-- Calling `front_pop` a given number of times; the outcomes in call order
and the queue afterwards. -/
def front_pop_times : Nat → queue α → List (Except exception α) × queue α
  | 0, q => ([], q)
  | n + 1, q =>
    let r := q.front_pop
    let rest := front_pop_times n r.2
    (r.1 :: rest.1, rest.2)

/-- The loop of `print2` in `test-queue.cpp`:
`while (!container.empty()) container.front_pop()`, bounded by a number of
iterations; the values handed to `std::cout` in order and the queue
afterwards. -/
def print2 : Nat → queue α → List (Except exception α) × queue α
  | 0, q => ([], q)
  | n + 1, q =>
    if q.empty then ([], q)
    else
      let r := q.front_pop
      let rest := print2 n r.2
      (r.1 :: rest.1, rest.2)

/-- One call on a queue, as a client may issue it. -/
inductive op (α : Type) where
  | push (x : α)
  | pop
  | front_pop
  | swap_fresh
  deriving Repr

/-- Bookkeeping of a run of calls on one queue: the queue itself, every
element pushed so far (in push order), every element a successful
`front_pop` returned (in call order), and how many elements `pop` and
`swap` removed. -/
structure run_log (α : Type) where
  q : queue α
  pushed : List α
  delivered : List α
  popped : Nat
  swapped : Nat

/-- Start of a run: an empty queue, nothing recorded. -/
def run_log.init : run_log α := ⟨mk_empty, [], [], 0, 0⟩

/-- Effect of one call on the bookkeeping.  `swap_fresh` is
`queue().swap(q)`: the queue is exchanged with a newly constructed one, whose
(empty) content it receives. -/
def run_log.step (l : run_log α) : op α → run_log α
  | .push x => { l with q := l.q.push x, pushed := l.pushed ++ [x] }
  | .pop => { l with q := l.q.pop, popped := l.popped + (l.q.size - l.q.pop.size) }
  | .front_pop =>
    match l.q.front_pop with
    | (.ok x, q') => { l with q := q', delivered := l.delivered ++ [x] }
    | (.error _, q') => { l with q := q' }
  | .swap_fresh =>
    let r := (mk_empty : queue α).swap l.q
    { l with q := r.2, swapped := l.swapped + r.1.size }

/-- A whole run of calls, starting from the empty queue. -/
def run_log.run (ops : List (op α)) : run_log α :=
  ops.foldl run_log.step run_log.init

/-- What a run of calls keeps true: the elements taken out so far, in the
order they left, followed by the queue content are the pushed elements; the
delivered ones are among those taken out, in order; and every element taken
out is counted once, as delivered, popped or swapped away. -/
def run_log.consistent (l : run_log α) : Prop :=
  ∃ removed : List α,
    removed ++ l.q.mQueue = l.pushed ∧
    l.delivered.Sublist removed ∧
    l.delivered.length + l.popped + l.swapped = removed.length

end queue
end thread_safe

/-! ## The thread pool -/

/-- Least value of the type `int` (32 bits, two's complement). -/
def INT_MIN : Int := -2147483648

/-- Greatest value of the type `int`. -/
def INT_MAX : Int := 2147483647

/-- The type `int`: the integers from `INT_MIN` to `INT_MAX`. -/
abbrev int := { x : Int // INT_MIN ≤ x ∧ x ≤ INT_MAX }

/-- Conversion of an integer to `int`, reducing modulo 2^32 into the range;
it is the identity on the values of `int`. -/
def int.of (x : Int) : int :=
  ⟨(x - INT_MIN) % 4294967296 + INT_MIN, by
    unfold INT_MIN INT_MAX
    omega⟩

/-- Objects of the producer (the `int` variables passed to `post`), by
address. -/
abbrev memory := Nat → int

/-- Value category of an argument expression of `post`: a plain variable
(`a`) or a moved one (`std::move(a)`). -/
inductive value_category where
  | lvalue
  | xvalue
  deriving DecidableEq, Repr

/-- A forwarding reference `_Args&& __args` bound by a call of `post`: the
object it refers to and the value category it was bound from. -/
structure reference where
  address : Nat
  category : value_category
  deriving DecidableEq, Repr

/-- The expression `std::move(a)`: the same object, as an xvalue. -/
def reference.move (r : reference) : reference :=
  { r with category := .xvalue }

/-- The expression `std::move(func)` on a function: a cast, the same
function. -/
def std_move {α : Type} (func : α) : α := func

/-- The reference pack `&__args...` held by the closure of `post`, seen
through the one thing the closure does with it: `std::forward<_Args>(__args)...`
reads the referred objects when the closure runs. -/
structure captured (α : Type) where
  read : memory → α

/-- One `int` argument.  Forwarded into a by-value `int` parameter, the
object is copied whatever the value category, and is left as it was. -/
def captured.one (r : reference) : captured int :=
  ⟨fun mem => mem r.address⟩

/-- Two `int` arguments. -/
def captured.two (r₁ r₂ : reference) : captured (int × int) :=
  ⟨fun mem => (mem r₁.address, mem r₂.address)⟩

/-- The shared state of a `std::promise`/`std::future` pair: not ready, or
ready with a value or with an exception. -/
abbrev shared_state (ρ : Type) := Option (Except exception ρ)

/-- Member `std::promise::set_value`: throws `std::future_error` when the
shared state is already ready. -/
def promise_set_value {ρ : Type} (st : shared_state ρ) (v : ρ) :
    Except exception (shared_state ρ) :=
  match st with
  | none => .ok (some (.ok v))
  | some _ => .error .future_error

/-- Member `std::promise::set_exception`: throws `std::future_error` when the
shared state is already ready. -/
def promise_set_exception {ρ : Type} (st : shared_state ρ) (e : exception) :
    Except exception (shared_state ρ) :=
  match st with
  | none => .ok (some (.error e))
  | some _ => .error .future_error

/-- The handler `catch(...) { try { promise->set_exception(...) } catch(...) {} }`
of the closure built by `post`. -/
def funcObject_catch {ρ : Type} (st : shared_state ρ) (e : exception) : shared_state ρ :=
  match promise_set_exception st e with
  | .ok st' => st'
  | .error _ => st

/-- Destructor of `std::promise`: a shared state that is not ready is made
ready with `std::future_error` (broken promise); a ready one is left as it
is. -/
def promise_destroy {ρ : Type} (st : shared_state ρ) : shared_state ρ :=
  match st with
  | none => some (.error .future_error)
  | some r => some r

/-- The element type of the task queue, `std::function<void()>`, as `post`
fills it: the closure `funcObject` with its captured `promise` (the index of
the shared state) and the call `__func(std::forward<_Args>(__args)...)`
through the captured references, which yields a value or throws. -/
structure task (ρ : Type) where
  promise : Nat
  call : memory → Except exception ρ

/-- Body of the closure `funcObject`: `try { promise->set_value(call) }`
with the handler above; it never throws itself. -/
def task.invoke {ρ : Type} (t : task ρ) (mem : memory) (st : shared_state ρ) :
    shared_state ρ :=
  match t.call mem with
  | .ok v =>
    match promise_set_value st v with
    | .ok st' => st'
    | .error e => funcObject_catch st e
  | .error e => funcObject_catch st e

/-- Destruction of tasks that were never run: each closure is destroyed and
with it the promise it owns, the closure holding the only `shared_ptr` to it
once `post` has returned. -/
def destroy_tasks {ρ : Type} (promises : Nat → shared_state ρ) :
    List (task ρ) → Nat → shared_state ρ
  | [] => promises
  | t :: ts =>
    destroy_tasks (Function.update promises t.promise (promise_destroy (promises t.promise))) ts

/-- Where a worker thread stands in `thread_pool::worker`. -/
inductive worker_pc (ρ : Type) where
  /-- About to evaluate `while (!mStop)`. -/
  | loop_test
  /-- Entered the `try` block, about to execute `mNumThreadDone--`. -/
  | try_enter
  /-- About to call `mTasks.front_pop()`. -/
  | try_front_pop
  /-- Holds the dequeued task, about to call `task()`. -/
  | try_task (t : task ρ)
  /-- The task returned, about to execute `mNumThreadDone++` in the `try` block. -/
  | try_done
  /-- In the handler, about to execute `mNumThreadDone++`. -/
  | catch_reset
  /-- Left the loop; `worker` returned. -/
  | exited

/-- The worker holds a dequeued task it has not finished (state Running). -/
def worker_pc.running {ρ : Type} : worker_pc ρ → Bool
  | .try_task _ => true
  | _ => false

/-- The worker is between its `mNumThreadDone--` and the matching
`mNumThreadDone++`. -/
def worker_pc.in_flight {ρ : Type} : worker_pc ρ → Bool
  | .try_front_pop => true
  | .try_task _ => true
  | .try_done => true
  | .catch_reset => true
  | _ => false

/-- The promise of the task a worker holds. -/
def worker_pc.holds {ρ : Type} : worker_pc ρ → Option Nat
  | .try_task t => some t.promise
  | _ => none

/-- Where the caller of `stop()` stands. -/
inductive stop_pc where
  | not_called
  /-- Stored `mStop`, in the loop `while (mNumThread != mNumThreadDone.load())`. -/
  | spinning
  /-- Left the loop, about to execute `_QUEUE_T().swap(mTasks)`. -/
  | clearing
  | returned
  deriving DecidableEq, Repr

/-- Where the caller of `wait()` stands. -/
inductive wait_pc where
  | not_called
  /-- About to evaluate `!mTasks.empty()`. -/
  | check_empty
  /-- Saw the queue empty, about to evaluate `mNumThread != mNumThreadDone.load()`. -/
  | check_done
  | returned
  deriving DecidableEq, Repr

/-- Number of values of `std::size_t` (64 bits). -/
def SIZE_MOD : Nat := 18446744073709551616

/-- The statement `mNumThreadDone--` on `std::atomic_size_t`. -/
def atomic_decrement (c : Nat) : Nat := (c + SIZE_MOD - 1) % SIZE_MOD

/-- The statement `mNumThreadDone++` on `std::atomic_size_t`. -/
def atomic_increment (c : Nat) : Nat := (c + 1) % SIZE_MOD

/-- The class `thread_pool` with its environment.  The members are `mStop`,
`mNumThreadDone`, `mNumThread`, `mThreads` (each thread by its program
counter) and `mTasks`.  Around them: the shared states of the promises made
so far, the producer objects, and the program counters of the callers of
`stop()` and `wait()`. -/
structure thread_pool (ρ : Type) where
  mStop : Bool
  mNumThreadDone : Nat
  mNumThread : Nat
  mThreads : List (worker_pc ρ)
  mTasks : thread_safe.queue (task ρ)
  promises : Nat → shared_state ρ
  next_promise : Nat
  mem : memory
  stop_at : stop_pc
  wait_at : wait_pc

namespace thread_pool

variable {ρ : Type}

/-- Constructor `thread_pool(__threadNum)`: both counters are the thread
count and every thread starts `worker`. -/
def init (threadNum : Nat) (mem : memory) : thread_pool ρ :=
  { mStop := false
    mNumThreadDone := threadNum
    mNumThread := threadNum
    mThreads := List.replicate threadNum .loop_test
    mTasks := thread_safe.queue.mk_empty
    promises := fun _ => none
    next_promise := 0
    mem := mem
    stop_at := .not_called
    wait_at := .not_called }

/-- Member `post`: the outcome (the future, named by the index of its shared
state, or the exception thrown) and the pool afterwards. -/
def post {α : Type} (s : thread_pool ρ) (func : α → Except exception ρ)
    (args : captured α) : Except exception Nat × thread_pool ρ :=
  if s.mNumThread = 0 then
    (.error .runtime_error, s)
  else
    let promise := s.next_promise
    let funcObject : task ρ := ⟨promise, fun mem => func (args.read mem)⟩
    (.ok promise,
      { s with
        promises := Function.update s.promises promise none
        next_promise := promise + 1
        mTasks := s.mTasks.push funcObject })

/-- Member `std::future::get` as far as it can be observed in a state:
`none` while the shared state is not ready (the call blocks), otherwise the
value returned or the exception rethrown. -/
def future_get (s : thread_pool ρ) (future : Nat) : Option (Except exception ρ) :=
  s.promises future

/-- One atomic step of worker thread `i` in `thread_pool::worker`.  The
closure `task` is destroyed when the `try` block is left; its promise is
ready by then (`task.invoke` leaves it ready in every case), so its
destructor changes nothing and has no step of its own. -/
def worker (s : thread_pool ρ) (i : Nat) : thread_pool ρ :=
  match s.mThreads[i]? with
  | none => s
  | some .loop_test =>
    if s.mStop then { s with mThreads := s.mThreads.set i .exited }
    else { s with mThreads := s.mThreads.set i .try_enter }
  | some .try_enter =>
    { s with
      mNumThreadDone := atomic_decrement s.mNumThreadDone
      mThreads := s.mThreads.set i .try_front_pop }
  | some .try_front_pop =>
    match s.mTasks.front_pop with
    | (.ok t, q) => { s with mTasks := q, mThreads := s.mThreads.set i (.try_task t) }
    | (.error _, q) => { s with mTasks := q, mThreads := s.mThreads.set i .catch_reset }
  | some (.try_task t) =>
    { s with
      promises := Function.update s.promises t.promise (t.invoke s.mem (s.promises t.promise))
      mThreads := s.mThreads.set i .try_done }
  | some .try_done =>
    { s with
      mNumThreadDone := atomic_increment s.mNumThreadDone
      mThreads := s.mThreads.set i .loop_test }
  | some .catch_reset =>
    { s with
      mNumThreadDone := atomic_increment s.mNumThreadDone
      mThreads := s.mThreads.set i .loop_test }
  | some .exited => s

/-- One atomic step of the caller of `stop()`; a step taken after it
returned starts another call.  The last step is the statement
`_QUEUE_T().swap(mTasks);`: the temporary receives the queued tasks, `mTasks`
the empty sequence, and the temporary is destroyed with the tasks in it.
The member `swap` is called on the temporary and locks the temporary's
mutex, not that of `mTasks`; the exchange is taken as the single step it is
when no other thread is inside a member function of `mTasks` meanwhile. -/
def stop (s : thread_pool ρ) : thread_pool ρ :=
  match s.stop_at with
  | .not_called => { s with mStop := true, stop_at := .spinning }
  | .returned => { s with mStop := true, stop_at := .spinning }
  | .spinning =>
    if s.mNumThread ≠ s.mNumThreadDone then s
    else { s with stop_at := .clearing }
  | .clearing =>
    let r := (thread_safe.queue.mk_empty : thread_safe.queue (task ρ)).swap s.mTasks
    { s with
      mTasks := r.2
      promises := destroy_tasks s.promises r.1.mQueue
      stop_at := .returned }

/-- One atomic step of the caller of `wait()`:
`while (!mTasks.empty() || mNumThread != mNumThreadDone.load()) {}`; a step
taken after it returned starts another call. -/
def wait (s : thread_pool ρ) : thread_pool ρ :=
  match s.wait_at with
  | .not_called => { s with wait_at := .check_empty }
  | .returned => { s with wait_at := .check_empty }
  | .check_empty =>
    if !s.mTasks.empty then s
    else { s with wait_at := .check_done }
  | .check_done =>
    if s.mNumThread ≠ s.mNumThreadDone then { s with wait_at := .check_empty }
    else { s with wait_at := .returned }

/-- What the threads around one pool can do in one atomic step: the
producer posts a callable with captured arguments or assigns to one of its
objects, a worker takes its next step, the callers of `stop()` and `wait()`
take theirs. -/
inductive action (ρ : Type) where
  | post {α : Type} (func : α → Except exception ρ) (args : captured α)
  | assign (address : Nat) (value : int)
  | worker (i : Nat)
  | stop
  | wait

/-- Effect of one action. -/
def step (s : thread_pool ρ) : action ρ → thread_pool ρ
  | .post func args => (s.post func args).2
  | .assign address value => { s with mem := Function.update s.mem address value }
  | .worker i => s.worker i
  | .stop => s.stop
  | .wait => s.wait

/-- Effect of a schedule, first action first. -/
def run (acts : List (action ρ)) (s : thread_pool ρ) : thread_pool ρ :=
  acts.foldl step s

/-- The action assigns to the object at `address`. -/
def action.assigns (address : Nat) : action ρ → Bool
  | .assign a _ => a == address
  | _ => false

/-- One whole pass of worker `i` through its loop, undisturbed: the loop
test, `mNumThreadDone--`, `front_pop()`, `task()`, `mNumThreadDone++`. -/
def iteration (i : Nat) : List (action ρ) :=
  [.worker i, .worker i, .worker i, .worker i, .worker i]

/-- The producer calls `post`, then worker `i` makes one whole pass through
its loop; the pool afterwards. -/
def post_and_run {α : Type} (s : thread_pool ρ) (i : Nat) (func : α → Except exception ρ)
    (args : captured α) : thread_pool ρ :=
  run (iteration i) (s.post func args).2

/-- Number of workers between their decrement and their increment. -/
def in_flight (s : thread_pool ρ) : Nat :=
  s.mThreads.countP worker_pc.in_flight

/-- The promises of the tasks the workers hold, in thread order. -/
def held_ids : List (worker_pc ρ) → List Nat
  | [] => []
  | pc :: ws => pc.holds.toList ++ held_ids ws

/-- The promises of the tasks that are queued or held by a worker. -/
def pending (s : thread_pool ρ) : List Nat :=
  s.mTasks.mQueue.map task.promise ++ held_ids s.mThreads

/-- What every schedule keeps true of a pool made for `N` threads: the
thread count and the number of threads are `N`; the counter and the workers
between decrement and increment add up to `N`; the shared state of every
promise made is ready or its task is queued or held; no promise belongs to
two queued or held tasks; and the shared state of a queued or held task is
not ready. -/
structure invariant (N : Nat) (s : thread_pool ρ) : Prop where
  numThread : s.mNumThread = N
  length : s.mThreads.length = N
  counter : s.mNumThreadDone + s.in_flight = N
  tracked : ∀ p, p < s.next_promise → (s.promises p).isSome = true ∨ p ∈ s.pending
  nodup : s.pending.Nodup
  fresh : ∀ p, p ∈ s.pending → p < s.next_promise ∧ s.promises p = none

/-- The promise `p` has been made, and every queued or held task that owns it
makes the call `c`. -/
def owns (p : Nat) (c : memory → Except exception ρ) (s : thread_pool ρ) : Prop :=
  p < s.next_promise ∧
  (∀ t, t ∈ s.mTasks.mQueue → t.promise = p → t.call = c) ∧
  (∀ t, worker_pc.try_task t ∈ s.mThreads → t.promise = p → t.call = c)

end thread_pool

/-- The function `foo1` of the thread pool tests, `int foo1(int i) { return --i; }`:
the decrement is taken in `int` and wraps at `INT_MIN`. -/
def foo1 (i : int) : Except exception int := .ok (int.of (i.val - 1))

end dumplings

/-! ## Theorems about the queue -/

namespace dumplings
namespace thread_safe
namespace queue

variable {α : Type}

theorem push_all_mQueue (q : queue α) (xs : List α) :
    (push_all q xs).mQueue = q.mQueue ++ xs := by
  induction xs generalizing q with
  | nil => simp [push_all]
  | cons x xs ih => simp [push_all, ih, push]

theorem front_pop_times_list (xs : List α) :
    front_pop_times xs.length (⟨xs⟩ : queue α) = (xs.map Except.ok, mk_empty) := by
  induction xs with
  | nil => simp [front_pop_times, mk_empty]
  | cons x xs ih => simp [front_pop_times, front_pop, ih]

theorem print2_list (xs : List α) (n : Nat) (h : xs.length ≤ n) :
    print2 n (⟨xs⟩ : queue α) = (xs.map Except.ok, mk_empty) := by
  induction xs generalizing n with
  | nil => cases n <;> simp [print2, mk_empty, empty]
  | cons x xs ih =>
    cases n with
    | zero => simp at h
    | succ n =>
      have h' : xs.length ≤ n := by simpa using h
      simp [print2, empty, front_pop, ih n h']

theorem run_log.consistent_init : (run_log.init : run_log α).consistent :=
  ⟨[], by simp [run_log.init, mk_empty]⟩

theorem run_log.consistent_step (l : run_log α) (o : op α) (h : l.consistent) :
    (l.step o).consistent := by
  obtain ⟨removed, h1, h2, h3⟩ := h
  cases o with
  | push x =>
    refine ⟨removed, ?_, h2, h3⟩
    simp [run_log.step, push, ← h1]
  | pop =>
    cases hq : l.q.mQueue with
    | nil =>
      refine ⟨removed, ?_, ?_, ?_⟩
      · simpa [run_log.step, pop, hq] using h1
      · simpa [run_log.step] using h2
      · simpa [run_log.step, pop, hq, size] using h3
    | cons y rest =>
      refine ⟨removed ++ [y], ?_, ?_, ?_⟩
      · simpa [run_log.step, pop, hq] using h1
      · simpa [run_log.step] using h2.trans (List.sublist_append_left removed [y])
      · simp [run_log.step, pop, hq, size]
        omega
  | front_pop =>
    cases hq : l.q.mQueue with
    | nil =>
      refine ⟨removed, ?_, ?_, ?_⟩
      · simpa [run_log.step, front_pop, hq] using h1
      · simpa [run_log.step, front_pop, hq] using h2
      · simpa [run_log.step, front_pop, hq] using h3
    | cons y rest =>
      refine ⟨removed ++ [y], ?_, ?_, ?_⟩
      · simpa [run_log.step, front_pop, hq] using h1
      · simpa [run_log.step, front_pop, hq] using h2.append (List.Sublist.refl [y])
      · simp [run_log.step, front_pop, hq]
        omega
  | swap_fresh =>
    refine ⟨removed ++ l.q.mQueue, ?_, ?_, ?_⟩
    · simpa [run_log.step, swap, mk_empty] using h1
    · simpa [run_log.step] using h2.trans (List.sublist_append_left removed l.q.mQueue)
    · simp [run_log.step, swap, mk_empty, size]
      omega

theorem run_log.consistent_foldl (ops : List (op α)) (l : run_log α) (h : l.consistent) :
    (ops.foldl run_log.step l).consistent := by
  induction ops generalizing l with
  | nil => simpa using h
  | cons o ops ih => exact ih _ (run_log.consistent_step l o h)

/-- C1: on a queue with no elements `front_pop` throws `std::out_of_range`,
hands back no element at all, and the queue is still empty afterwards. -/
theorem front_pop_on_empty_throws (q : queue α) (h : q.size = 0) :
    q.front_pop.1 = .error .out_of_range ∧
    (∀ x : α, q.front_pop.1 ≠ .ok x) ∧
    q.front_pop.2 = q ∧
    q.front_pop.2.size = 0 ∧ q.front_pop.2.empty = true := by
  have hq : q.mQueue = [] := List.length_eq_zero.mp h
  simp [front_pop, hq, size, empty]

theorem front_pop_on_empty_throws_witness :
    (mk_empty : queue Int).size = 0 ∧
    (mk_empty : queue Int).front_pop.1 = .error .out_of_range ∧
    (mk_empty : queue Int).front_pop.2.empty = true :=
  ⟨by decide,
   (front_pop_on_empty_throws (mk_empty : queue Int) (by decide)).1,
   (front_pop_on_empty_throws (mk_empty : queue Int) (by decide)).2.2.2.2⟩

/-- C2: the queue is first-in first-out.  Pushing `x1 .. xn` in that order
onto an empty queue and calling `front_pop` n times succeeds every time,
returns `x1 .. xn` in that order and leaves the queue empty (size 0, `empty()`
true); the draining loop of `print2` yields the same sequence. -/
theorem push_then_front_pop_fifo (xs : List α) :
    front_pop_times xs.length (push_all mk_empty xs) = (xs.map Except.ok, mk_empty) ∧
    (front_pop_times xs.length (push_all mk_empty xs)).2.size = 0 ∧
    (front_pop_times xs.length (push_all mk_empty xs)).2.empty = true ∧
    (push_all (mk_empty : queue α) xs).size = xs.length ∧
    ∀ n, xs.length ≤ n →
      print2 n (push_all mk_empty xs) = (xs.map Except.ok, mk_empty) := by
  have hq : push_all (mk_empty : queue α) xs = ⟨xs⟩ := by
    have := push_all_mQueue (mk_empty : queue α) xs
    cases hp : push_all (mk_empty : queue α) xs
    simp_all [mk_empty]
  rw [hq, front_pop_times_list]
  refine ⟨rfl, rfl, rfl, rfl, fun n hn => print2_list xs n hn⟩

/-- C3: conservation of queued items.  After any sequence of `push`, `pop`,
`front_pop` and swap-with-a-fresh-queue calls on an initially empty queue,
the number of elements delivered by successful `front_pop` calls is the
number of pushes minus the elements removed by `pop`, minus those removed by
`swap`, minus those still queued; and the delivered elements are a
subsequence of the pushed ones (each push position used at most once), so
distinct pushes are never delivered twice. -/
theorem run_conservation (ops : List (op α)) :
    (run_log.run ops).delivered.length =
      (run_log.run ops).pushed.length - (run_log.run ops).popped
        - (run_log.run ops).swapped - (run_log.run ops).q.size ∧
    (run_log.run ops).delivered.length + (run_log.run ops).popped
        + (run_log.run ops).swapped + (run_log.run ops).q.size
      = (run_log.run ops).pushed.length ∧
    (run_log.run ops).delivered.Sublist (run_log.run ops).pushed ∧
    ((run_log.run ops).pushed.Nodup → (run_log.run ops).delivered.Nodup) := by
  obtain ⟨removed, h1, h2, h3⟩ :=
    run_log.consistent_foldl ops run_log.init run_log.consistent_init
  have hlen : removed.length + (run_log.run ops).q.size = (run_log.run ops).pushed.length := by
    have := congrArg List.length h1
    simpa [size] using this
  have hsub : (run_log.run ops).delivered.Sublist (run_log.run ops).pushed := by
    have h4 := h2.trans (List.sublist_append_left removed (run_log.run ops).q.mQueue)
    exact h1 ▸ h4
  refine ⟨?_, ?_, hsub, fun hnd => hnd.sublist hsub⟩
  · have h3' : (run_log.run ops).delivered.length + (run_log.run ops).popped
        + (run_log.run ops).swapped = removed.length := h3
    omega
  · have h3' : (run_log.run ops).delivered.length + (run_log.run ops).popped
        + (run_log.run ops).swapped = removed.length := h3
    omega

end queue
end thread_safe
end dumplings

/-! ## Theorems about the thread pool -/

namespace dumplings
namespace thread_pool

variable {ρ : Type}

theorem task_invoke_isSome (t : task ρ) (mem : memory) (st : shared_state ρ) :
    (t.invoke mem st).isSome = true := by
  cases st with
  | none =>
    cases h : t.call mem <;>
      simp [task.invoke, h, promise_set_value, funcObject_catch, promise_set_exception]
  | some r =>
    cases h : t.call mem <;>
      simp [task.invoke, h, promise_set_value, funcObject_catch, promise_set_exception]

theorem task_invoke_none (t : task ρ) (mem : memory) :
    t.invoke mem none = some (t.call mem) := by
  cases h : t.call mem <;>
    simp [task.invoke, h, promise_set_value, funcObject_catch, promise_set_exception]

theorem task_invoke_some (t : task ρ) (mem : memory) (r : Except exception ρ) :
    t.invoke mem (some r) = some r := by
  cases h : t.call mem <;>
    simp [task.invoke, h, promise_set_value, funcObject_catch, promise_set_exception]

theorem destroy_tasks_other (ts : List (task ρ)) (promises : Nat → shared_state ρ) (p : Nat)
    (h : p ∉ ts.map task.promise) : destroy_tasks promises ts p = promises p := by
  induction ts generalizing promises with
  | nil => rfl
  | cons t ts ih =>
    simp only [List.map_cons, List.mem_cons, not_or] at h
    rw [destroy_tasks, ih _ h.2]
    simp [Function.update, h.1]

theorem destroy_tasks_some (ts : List (task ρ)) (promises : Nat → shared_state ρ) (p : Nat)
    (r : Except exception ρ) (h : promises p = some r) :
    destroy_tasks promises ts p = some r := by
  induction ts generalizing promises with
  | nil => exact h
  | cons t ts ih =>
    rw [destroy_tasks]
    apply ih
    by_cases hp : p = t.promise
    · subst hp
      simp [Function.update, h, promise_destroy]
    · simpa [Function.update, hp] using h

theorem destroy_tasks_isSome (ts : List (task ρ)) (promises : Nat → shared_state ρ) (p : Nat)
    (h : (promises p).isSome = true ∨ p ∈ ts.map task.promise) :
    (destroy_tasks promises ts p).isSome = true := by
  induction ts generalizing promises with
  | nil =>
    rcases h with h | h
    · exact h
    · simp at h
  | cons t ts ih =>
    rw [destroy_tasks]
    apply ih
    by_cases hp : p = t.promise
    · subst hp
      left
      cases hq : promises t.promise <;> simp [Function.update, promise_destroy]
    · rcases h with h | h
      · left
        simpa [Function.update, hp] using h
      · simp only [List.map_cons, List.mem_cons] at h
        rcases h with h | h
        · exact absurd h hp
        · exact Or.inr h

theorem countP_set_balance (f : worker_pc ρ → Bool) (ws : List (worker_pc ρ)) (i : Nat)
    (old new : worker_pc ρ) (h : ws[i]? = some old) :
    (ws.set i new).countP f + (if f old then 1 else 0)
      = ws.countP f + (if f new then 1 else 0) := by
  obtain ⟨hi, hget⟩ := List.getElem?_eq_some_iff.mp h
  have hle := List.boole_getElem_le_countP f ws i hi
  rw [List.countP_set f ws i new hi, hget] at *
  omega

theorem held_ids_set_perm (ws : List (worker_pc ρ)) (i : Nat) (old new : worker_pc ρ)
    (h : ws[i]? = some old) :
    (old.holds.toList ++ held_ids (ws.set i new)).Perm
      (new.holds.toList ++ held_ids ws) := by
  induction ws generalizing i with
  | nil => simp at h
  | cons w ws ih =>
    cases i with
    | zero =>
      simp only [List.getElem?_cons_zero, Option.some.injEq] at h
      subst h
      simp only [List.set_cons_zero, held_ids]
      rw [← List.append_assoc, ← List.append_assoc]
      exact List.Perm.append_right _ List.perm_append_comm
    | succ k =>
      simp only [List.getElem?_cons_succ] at h
      have hk := ih k h
      simp only [List.set_cons_succ, held_ids]
      calc (old.holds.toList ++ (w.holds.toList ++ held_ids (ws.set k new))).Perm
            (w.holds.toList ++ (old.holds.toList ++ held_ids (ws.set k new))) := by
              rw [← List.append_assoc, ← List.append_assoc]
              exact List.Perm.append_right _ List.perm_append_comm
        _ |>.Perm (w.holds.toList ++ (new.holds.toList ++ held_ids ws)) :=
              List.Perm.append_left _ hk
        _ |>.Perm (new.holds.toList ++ (w.holds.toList ++ held_ids ws)) := by
              rw [← List.append_assoc, ← List.append_assoc]
              exact List.Perm.append_right _ List.perm_append_comm

theorem mem_held_ids (ws : List (worker_pc ρ)) (p : Nat) :
    p ∈ held_ids ws ↔ ∃ pc, pc ∈ ws ∧ pc.holds = some p := by
  induction ws with
  | nil => simp [held_ids]
  | cons w ws ih =>
    simp only [held_ids, List.mem_append, ih, List.mem_cons, Option.mem_toList,
      Option.mem_def]
    constructor
    · rintro (h | ⟨pc, h1, h2⟩)
      · exact ⟨w, Or.inl rfl, h⟩
      · exact ⟨pc, Or.inr h1, h2⟩
    · rintro ⟨pc, h1 | h1, h2⟩
      · left
        rw [← h1]
        exact h2
      · exact Or.inr ⟨pc, h1, h2⟩

theorem atomic_decrement_eq {c : Nat} (h1 : 0 < c) (h2 : c < SIZE_MOD) :
    atomic_decrement c = c - 1 := by
  unfold atomic_decrement SIZE_MOD at *
  omega

theorem atomic_increment_eq {c : Nat} (h2 : c + 1 < SIZE_MOD) :
    atomic_increment c = c + 1 := by
  unfold atomic_increment SIZE_MOD at *
  omega

theorem worker_none (s : thread_pool ρ) (i : Nat) (hi : s.mThreads[i]? = none) :
    s.worker i = s := by
  simp only [worker, hi]

theorem worker_loop_test (s : thread_pool ρ) (i : Nat)
    (hi : s.mThreads[i]? = some .loop_test) :
    s.worker i =
      { s with mThreads := s.mThreads.set i (if s.mStop then .exited else .try_enter) } := by
  by_cases hs : s.mStop = true
  · simp only [worker, hi, hs, if_true]
  · simp only [worker, hi, hs]
    simp

theorem worker_try_enter (s : thread_pool ρ) (i : Nat)
    (hi : s.mThreads[i]? = some .try_enter) :
    s.worker i =
      { s with
        mNumThreadDone := atomic_decrement s.mNumThreadDone
        mThreads := s.mThreads.set i .try_front_pop } := by
  simp only [worker, hi]

theorem worker_front_pop_nil (s : thread_pool ρ) (i : Nat)
    (hi : s.mThreads[i]? = some .try_front_pop) (hq : s.mTasks.mQueue = []) :
    s.worker i = { s with mThreads := s.mThreads.set i .catch_reset } := by
  simp only [worker, hi, thread_safe.queue.front_pop, hq]

theorem worker_front_pop_cons (s : thread_pool ρ) (i : Nat) (t : task ρ)
    (rest : List (task ρ))
    (hi : s.mThreads[i]? = some .try_front_pop) (hq : s.mTasks.mQueue = t :: rest) :
    s.worker i = { s with mTasks := ⟨rest⟩, mThreads := s.mThreads.set i (.try_task t) } := by
  simp only [worker, hi, thread_safe.queue.front_pop, hq]

theorem worker_try_task (s : thread_pool ρ) (i : Nat) (t : task ρ)
    (hi : s.mThreads[i]? = some (.try_task t)) :
    s.worker i =
      { s with
        promises := Function.update s.promises t.promise
          (t.invoke s.mem (s.promises t.promise))
        mThreads := s.mThreads.set i .try_done } := by
  simp only [worker, hi]

theorem worker_try_done (s : thread_pool ρ) (i : Nat)
    (hi : s.mThreads[i]? = some .try_done) :
    s.worker i =
      { s with
        mNumThreadDone := atomic_increment s.mNumThreadDone
        mThreads := s.mThreads.set i .loop_test } := by
  simp only [worker, hi]

theorem worker_catch_reset (s : thread_pool ρ) (i : Nat)
    (hi : s.mThreads[i]? = some .catch_reset) :
    s.worker i =
      { s with
        mNumThreadDone := atomic_increment s.mNumThreadDone
        mThreads := s.mThreads.set i .loop_test } := by
  simp only [worker, hi]

theorem worker_exited (s : thread_pool ρ) (i : Nat)
    (hi : s.mThreads[i]? = some .exited) :
    s.worker i = s := by
  simp only [worker, hi]

theorem invariant_init (N : Nat) (mem : memory) :
    invariant N (init N mem : thread_pool ρ) := by
  have hh : ∀ n : Nat, held_ids (List.replicate n (worker_pc.loop_test : worker_pc ρ)) = [] := by
    intro n
    induction n with
    | zero => rfl
    | succ n ih => simp [List.replicate_succ, held_ids, ih, worker_pc.holds]
  have hp : (init N mem : thread_pool ρ).pending = [] := by
    simp [pending, init, thread_safe.queue.mk_empty, hh]
  refine ⟨rfl, by simp [init], ?_, ?_, ?_, ?_⟩
  · have h0 : (List.replicate N (worker_pc.loop_test : worker_pc ρ)).countP
        worker_pc.in_flight = 0 := by
      rw [List.countP_eq_zero]
      intro pc hpc
      rw [List.eq_of_mem_replicate hpc]
      simp [worker_pc.in_flight]
    simp [init, in_flight, h0]
  · intro p hp
    simp [init] at hp
  · rw [hp]
    exact List.nodup_nil
  · intro p hmem
    rw [hp] at hmem
    cases hmem

theorem invariant_of_perm {N : Nat} {s s' : thread_pool ρ} (h : invariant N s)
    (hnum : s'.mNumThread = s.mNumThread) (hlen : s'.mThreads.length = s.mThreads.length)
    (hc : s'.mNumThreadDone + s'.in_flight = N) (hprom : s'.promises = s.promises)
    (hnext : s'.next_promise = s.next_promise) (hperm : s'.pending.Perm s.pending) :
    invariant N s' := by
  refine ⟨hnum.trans h.numThread, hlen.trans h.length, hc, ?_, ?_, ?_⟩
  · intro p hp
    rw [hnext] at hp
    rw [hprom]
    rcases h.tracked p hp with h1 | h1
    · exact Or.inl h1
    · exact Or.inr (hperm.mem_iff.mpr h1)
  · exact hperm.nodup_iff.mpr h.nodup
  · intro p hp
    rw [hnext, hprom]
    exact h.fresh p (hperm.mem_iff.mp hp)

theorem post_eq_of_threads (s : thread_pool ρ) {α : Type} (func : α → Except exception ρ)
    (args : captured α) (h : s.mNumThread ≠ 0) :
    s.post func args =
      (.ok s.next_promise,
        { s with
          promises := Function.update s.promises s.next_promise none
          next_promise := s.next_promise + 1
          mTasks := s.mTasks.push ⟨s.next_promise, fun mem => func (args.read mem)⟩ }) := by
  simp only [post, h, if_false]

theorem post_eq_of_no_threads (s : thread_pool ρ) {α : Type}
    (func : α → Except exception ρ) (args : captured α) (h : s.mNumThread = 0) :
    s.post func args = (.error .runtime_error, s) := by
  simp only [post, h, if_true]

theorem invariant_post {N : Nat} {s : thread_pool ρ} (h : invariant N s) {α : Type}
    (func : α → Except exception ρ) (args : captured α) :
    invariant N (s.post func args).2 := by
  by_cases h0 : s.mNumThread = 0
  · rw [post_eq_of_no_threads s func args h0]
    exact h
  · rw [post_eq_of_threads s func args h0]
    have hpend : ∀ p, p ∈ s.mTasks.mQueue.map task.promise ++ [s.next_promise]
        ++ held_ids s.mThreads ↔ p = s.next_promise ∨ p ∈ s.pending := by
      intro p
      simp only [pending, List.mem_append, List.mem_singleton]
      tauto
    have hnew : s.next_promise ∉ s.pending := fun hm =>
      Nat.lt_irrefl _ (h.fresh _ hm).1
    refine ⟨h.numThread, h.length, h.counter, ?_, ?_, ?_⟩
    · intro p hp
      have hp' : p < s.next_promise + 1 := hp
      by_cases hlt : p < s.next_promise
      · have hne : p ≠ s.next_promise := Nat.ne_of_lt hlt
        rcases h.tracked p hlt with h1 | h1
        · exact Or.inl (by simpa [Function.update, hne] using h1)
        · refine Or.inr ?_
          simp only [pending, thread_safe.queue.push, List.map_append, List.map_cons,
            List.map_nil]
          exact (hpend p).mpr (Or.inr h1)
      · have heq : p = s.next_promise := by omega
        refine Or.inr ?_
        simp only [pending, thread_safe.queue.push, List.map_append, List.map_cons,
          List.map_nil]
        exact (hpend p).mpr (Or.inl heq)
    · simp only [pending, thread_safe.queue.push, List.map_append, List.map_cons,
        List.map_nil]
      have hperm : (s.mTasks.mQueue.map task.promise ++ [s.next_promise]
          ++ held_ids s.mThreads).Perm (s.next_promise :: s.pending) := by
        unfold pending
        rw [List.append_assoc]
        exact List.perm_middle
      rw [hperm.nodup_iff]
      exact List.nodup_cons.mpr ⟨hnew, h.nodup⟩
    · intro p hp
      simp only [pending, thread_safe.queue.push, List.map_append, List.map_cons,
        List.map_nil] at hp
      rcases (hpend p).mp hp with h1 | h1
      · subst h1
        exact ⟨Nat.lt_succ_self _, by simp [Function.update]⟩
      · have hf := h.fresh p h1
        have hne : p ≠ s.next_promise := Nat.ne_of_lt hf.1
        exact ⟨Nat.lt_succ_of_lt hf.1, by simpa [Function.update, hne] using hf.2⟩

theorem invariant_assign {N : Nat} {s : thread_pool ρ} (h : invariant N s)
    (address : Nat) (value : int) :
    invariant N { s with mem := Function.update s.mem address value } :=
  ⟨h.numThread, h.length, h.counter, h.tracked, h.nodup, h.fresh⟩

theorem wait_cases (s : thread_pool ρ) :
    s.wait = { s with wait_at := s.wait.wait_at } ∧
    (s.wait.wait_at = .check_done → s.mTasks.mQueue = []) ∧
    (s.wait.wait_at = .returned →
      s.wait_at = .check_done ∧ s.mNumThreadDone = s.mNumThread) := by
  cases h : s.wait_at with
  | not_called =>
    have e : s.wait = { s with wait_at := .check_empty } := by simp only [wait, h]
    rw [e]
    exact ⟨rfl, (fun h1 => by cases h1), (fun h1 => by cases h1)⟩
  | returned =>
    have e : s.wait = { s with wait_at := .check_empty } := by simp only [wait, h]
    rw [e]
    exact ⟨rfl, (fun h1 => by cases h1), (fun h1 => by cases h1)⟩
  | check_empty =>
    cases hq : s.mTasks.mQueue with
    | nil =>
      have e : s.wait = { s with wait_at := .check_done } := by
        simp [wait, h, thread_safe.queue.empty, hq]
      rw [e]
      exact ⟨rfl, fun _ => rfl, (fun h1 => by cases h1)⟩
    | cons t rest =>
      have e : s.wait = s := by
        simp [wait, h, thread_safe.queue.empty, hq]
      rw [e]
      refine ⟨rfl, fun h1 => ?_, fun h1 => ?_⟩
      · rw [h] at h1
        cases h1
      · rw [h] at h1
        cases h1
  | check_done =>
    by_cases hc : s.mNumThread ≠ s.mNumThreadDone
    · have e : s.wait = { s with wait_at := .check_empty } := by
        simp only [wait, h]
        rw [if_pos hc]
      rw [e]
      exact ⟨rfl, (fun h1 => by cases h1), (fun h1 => by cases h1)⟩
    · have e : s.wait = { s with wait_at := .returned } := by
        simp only [wait, h]
        rw [if_neg hc]
      rw [e]
      refine ⟨rfl, (fun h1 => by cases h1), fun _ => ⟨rfl, ?_⟩⟩
      exact (not_not.mp hc).symm

theorem invariant_wait {N : Nat} {s : thread_pool ρ} (h : invariant N s) :
    invariant N s.wait := by
  rw [(wait_cases s).1]
  exact ⟨h.numThread, h.length, h.counter, h.tracked, h.nodup, h.fresh⟩

theorem stop_eq (s : thread_pool ρ) :
    s.stop =
      match s.stop_at with
      | .not_called => { s with mStop := true, stop_at := .spinning }
      | .returned => { s with mStop := true, stop_at := .spinning }
      | .spinning =>
        if s.mNumThread ≠ s.mNumThreadDone then s else { s with stop_at := .clearing }
      | .clearing =>
        { s with
          mTasks := ⟨[]⟩
          promises := destroy_tasks s.promises s.mTasks.mQueue
          stop_at := .returned } := by
  cases h : s.stop_at <;> simp only [stop, h, thread_safe.queue.swap, thread_safe.queue.mk_empty]

theorem invariant_stop {N : Nat} {s : thread_pool ρ} (h : invariant N s) :
    invariant N s.stop := by
  rw [stop_eq]
  cases hs : s.stop_at with
  | not_called => exact ⟨h.numThread, h.length, h.counter, h.tracked, h.nodup, h.fresh⟩
  | returned => exact ⟨h.numThread, h.length, h.counter, h.tracked, h.nodup, h.fresh⟩
  | spinning =>
    by_cases hc : s.mNumThread ≠ s.mNumThreadDone
    · simp only []
      rw [if_pos hc]
      exact h
    · simp only []
      rw [if_neg hc]
      exact ⟨h.numThread, h.length, h.counter, h.tracked, h.nodup, h.fresh⟩
  | clearing =>
    have hnd := h.nodup
    unfold pending at hnd
    refine ⟨h.numThread, h.length, h.counter, ?_, ?_, ?_⟩
    · intro p hp
      rcases h.tracked p hp with h1 | h1
      · exact Or.inl (destroy_tasks_isSome _ _ _ (Or.inl h1))
      · unfold pending at h1
        rcases List.mem_append.mp h1 with h2 | h2
        · exact Or.inl (destroy_tasks_isSome _ _ _ (Or.inr h2))
        · exact Or.inr (by simpa [pending] using h2)
    · simpa [pending] using (List.nodup_append.mp hnd).2.1
    · intro p hp
      have hp' : p ∈ held_ids s.mThreads := by simpa [pending] using hp
      have hf := h.fresh p (by unfold pending; exact List.mem_append_right _ hp')
      have hnq : p ∉ s.mTasks.mQueue.map task.promise := fun hq =>
        (List.nodup_append.mp hnd).2.2 hq hp'
      refine ⟨hf.1, ?_⟩
      show destroy_tasks s.promises s.mTasks.mQueue p = none
      rw [destroy_tasks_other _ _ _ hnq]
      exact hf.2

theorem pending_set_perm (s : thread_pool ρ) (i : Nat) (old new : worker_pc ρ)
    (q : List (task ρ)) (hi : s.mThreads[i]? = some old) :
    (old.holds.toList ++ (q.map task.promise ++ held_ids (s.mThreads.set i new))).Perm
      (new.holds.toList ++ (q.map task.promise ++ held_ids s.mThreads)) := by
  have h := held_ids_set_perm s.mThreads i old new hi
  calc (old.holds.toList ++ (q.map task.promise ++ held_ids (s.mThreads.set i new))).Perm
        (q.map task.promise ++ (old.holds.toList ++ held_ids (s.mThreads.set i new))) := by
          rw [← List.append_assoc, ← List.append_assoc]
          exact List.Perm.append_right _ List.perm_append_comm
    _ |>.Perm (q.map task.promise ++ (new.holds.toList ++ held_ids s.mThreads)) :=
          List.Perm.append_left _ h
    _ |>.Perm (new.holds.toList ++ (q.map task.promise ++ held_ids s.mThreads)) := by
          rw [← List.append_assoc, ← List.append_assoc]
          exact List.Perm.append_right _ List.perm_append_comm

theorem invariant_worker {N : Nat} {s : thread_pool ρ} (hN : N < SIZE_MOD)
    (h : invariant N s) (i : Nat) : invariant N (s.worker i) := by
  have hc := h.counter
  have hl := h.length
  unfold in_flight at hc
  cases hi : s.mThreads[i]? with
  | none => rw [worker_none s i hi]; exact h
  | some pc =>
    have hbal := fun new => countP_set_balance worker_pc.in_flight s.mThreads i pc new hi
    have hcle : ∀ new : worker_pc ρ,
        (s.mThreads.set i new).countP worker_pc.in_flight ≤ N := by
      intro new
      have := List.countP_le_length worker_pc.in_flight (l := s.mThreads.set i new)
      simpa [hl] using this
    have hperm := fun new q => pending_set_perm s i pc new q hi
    cases pc with
    | loop_test =>
      rw [worker_loop_test s i hi]
      have hb := hbal (if s.mStop then .exited else .try_enter)
      have hf : worker_pc.in_flight
          (if s.mStop then (.exited : worker_pc ρ) else .try_enter) = false := by
        cases s.mStop <;> rfl
      have hh : worker_pc.holds
          (if s.mStop then (.exited : worker_pc ρ) else .try_enter) = none := by
        cases s.mStop <;> rfl
      rw [hf] at hb
      simp [worker_pc.in_flight] at hb
      refine invariant_of_perm h rfl (List.length_set _ _ _) ?_ rfl rfl ?_
      · simp only [in_flight]; omega
      · have hp := hperm (if s.mStop then .exited else .try_enter) s.mTasks.mQueue
        rw [hh] at hp
        simpa [pending, worker_pc.holds] using hp
    | try_enter =>
      rw [worker_try_enter s i hi]
      have hb := hbal .try_front_pop
      have hle := hcle .try_front_pop
      simp [worker_pc.in_flight] at hb
      refine invariant_of_perm h rfl (List.length_set _ _ _) ?_ rfl rfl ?_
      · simp only [in_flight]
        rw [atomic_decrement_eq (by omega) (by omega)]
        omega
      · simpa [pending, worker_pc.holds] using hperm .try_front_pop s.mTasks.mQueue
    | try_front_pop =>
      cases hq : s.mTasks.mQueue with
      | nil =>
        rw [worker_front_pop_nil s i hi hq]
        have hb := hbal .catch_reset
        simp [worker_pc.in_flight] at hb
        refine invariant_of_perm h rfl (List.length_set _ _ _) ?_ rfl rfl ?_
        · simp only [in_flight]; omega
        · simpa [pending, worker_pc.holds] using hperm .catch_reset s.mTasks.mQueue
      | cons t rest =>
        rw [worker_front_pop_cons s i t rest hi hq]
        have hb := hbal (.try_task t)
        simp [worker_pc.in_flight] at hb
        refine invariant_of_perm h rfl (List.length_set _ _ _) ?_ rfl rfl ?_
        · simp only [in_flight]; omega
        · have hp := hperm (.try_task t) rest
          simp only [worker_pc.holds, Option.toList, List.nil_append] at hp
          simp only [pending, hq, List.map_cons]
          simpa using hp
    | try_task t =>
      rw [worker_try_task s i t hi]
      have hb := hbal .try_done
      simp [worker_pc.in_flight] at hb
      have hp := hperm .try_done s.mTasks.mQueue
      simp only [worker_pc.holds, Option.toList, List.nil_append, List.singleton_append] at hp
      have hnd : (t.promise :: (s.mTasks.mQueue.map task.promise
          ++ held_ids (s.mThreads.set i .try_done))).Nodup := by
        rw [hp.nodup_iff]
        exact h.nodup
      have hmem : ∀ p, p ∈ s.mTasks.mQueue.map task.promise
          ++ held_ids (s.mThreads.set i .try_done) → p ≠ t.promise ∧ p ∈ s.pending := by
        intro p hpm
        refine ⟨fun he => (List.nodup_cons.mp hnd).1 (he ▸ hpm), ?_⟩
        exact hp.mem_iff.mp (List.mem_cons_of_mem _ hpm)
      refine ⟨h.numThread, (List.length_set _ _ _).trans hl, ?_, ?_, ?_, ?_⟩
      · simp only [in_flight]; omega
      · intro p hlt
        by_cases hpt : p = t.promise
        · exact Or.inl (by simp [Function.update, hpt, task_invoke_isSome])
        · rcases h.tracked p hlt with h1 | h1
          · exact Or.inl (by simpa [Function.update, hpt] using h1)
          · refine Or.inr ?_
            have h2 := hp.mem_iff.mpr h1
            rcases List.mem_cons.mp h2 with h3 | h3
            · exact absurd h3 hpt
            · exact h3
      · exact (List.nodup_cons.mp hnd).2
      · intro p hpm
        obtain ⟨hne, hin⟩ := hmem p hpm
        have hf := h.fresh p hin
        exact ⟨hf.1, by simpa [Function.update, hne] using hf.2⟩
    | try_done =>
      rw [worker_try_done s i hi]
      have hb := hbal .loop_test
      simp [worker_pc.in_flight] at hb
      refine invariant_of_perm h rfl (List.length_set _ _ _) ?_ rfl rfl ?_
      · simp only [in_flight]
        rw [atomic_increment_eq (by omega)]
        omega
      · simpa [pending, worker_pc.holds] using hperm .loop_test s.mTasks.mQueue
    | catch_reset =>
      rw [worker_catch_reset s i hi]
      have hb := hbal .loop_test
      simp [worker_pc.in_flight] at hb
      refine invariant_of_perm h rfl (List.length_set _ _ _) ?_ rfl rfl ?_
      · simp only [in_flight]
        rw [atomic_increment_eq (by omega)]
        omega
      · simpa [pending, worker_pc.holds] using hperm .loop_test s.mTasks.mQueue
    | exited => rw [worker_exited s i hi]; exact h

theorem invariant_step {N : Nat} {s : thread_pool ρ} (hN : N < SIZE_MOD)
    (h : invariant N s) (a : action ρ) : invariant N (s.step a) := by
  cases a with
  | post func args => exact invariant_post h func args
  | assign address value => exact invariant_assign h address value
  | worker i => exact invariant_worker hN h i
  | stop => exact invariant_stop h
  | wait => exact invariant_wait h

theorem invariant_run {N : Nat} (hN : N < SIZE_MOD) (acts : List (action ρ))
    {s : thread_pool ρ} (h : invariant N s) : invariant N (run acts s) := by
  induction acts generalizing s with
  | nil => exact h
  | cons a acts ih => exact ih (invariant_step hN h a)

theorem worker_mNumThread (s : thread_pool ρ) (i : Nat) :
    (s.worker i).mNumThread = s.mNumThread ∧
    (s.worker i).mThreads.length = s.mThreads.length := by
  cases hi : s.mThreads[i]? with
  | none => rw [worker_none s i hi]; exact ⟨rfl, rfl⟩
  | some pc =>
    cases pc with
    | loop_test => rw [worker_loop_test s i hi]; exact ⟨rfl, List.length_set _ _ _⟩
    | try_enter => rw [worker_try_enter s i hi]; exact ⟨rfl, List.length_set _ _ _⟩
    | try_front_pop =>
      cases hq : s.mTasks.mQueue with
      | nil => rw [worker_front_pop_nil s i hi hq]; exact ⟨rfl, List.length_set _ _ _⟩
      | cons t rest =>
        rw [worker_front_pop_cons s i t rest hi hq]; exact ⟨rfl, List.length_set _ _ _⟩
    | try_task t => rw [worker_try_task s i t hi]; exact ⟨rfl, List.length_set _ _ _⟩
    | try_done => rw [worker_try_done s i hi]; exact ⟨rfl, List.length_set _ _ _⟩
    | catch_reset => rw [worker_catch_reset s i hi]; exact ⟨rfl, List.length_set _ _ _⟩
    | exited => rw [worker_exited s i hi]; exact ⟨rfl, rfl⟩

theorem step_mNumThread (s : thread_pool ρ) (a : action ρ) :
    (s.step a).mNumThread = s.mNumThread ∧
    (s.step a).mThreads.length = s.mThreads.length := by
  cases a with
  | post func args =>
    simp only [step, post]
    split <;> simp
  | assign address value => simp [step]
  | worker i => exact worker_mNumThread s i
  | stop =>
    show s.stop.mNumThread = s.mNumThread ∧ s.stop.mThreads.length = s.mThreads.length
    rw [stop_eq]
    cases hs : s.stop_at with
    | spinning =>
      by_cases hc : s.mNumThread ≠ s.mNumThreadDone
      · simp only []
        rw [if_pos hc]
        exact ⟨rfl, rfl⟩
      · simp only []
        rw [if_neg hc]
        exact ⟨rfl, rfl⟩
    | _ => exact ⟨rfl, rfl⟩
  | wait =>
    show s.wait.mNumThread = s.mNumThread ∧ s.wait.mThreads.length = s.mThreads.length
    rw [(wait_cases s).1]
    exact ⟨rfl, rfl⟩

theorem run_mNumThread (acts : List (action ρ)) (s : thread_pool ρ) :
    (run acts s).mNumThread = s.mNumThread ∧
    (run acts s).mThreads.length = s.mThreads.length := by
  induction acts generalizing s with
  | nil => exact ⟨rfl, rfl⟩
  | cons a acts ih =>
    have h1 := ih (s.step a)
    have h2 := step_mNumThread s a
    exact ⟨h1.1.trans h2.1, h1.2.trans h2.2⟩

theorem run_init_mNumThread (N : Nat) (mem : memory) (acts : List (action ρ)) :
    (run acts (init N mem)).mNumThread = N ∧
    (run acts (init N mem)).mThreads.length = N := by
  have h := run_mNumThread acts (init N mem : thread_pool ρ)
  simpa [init] using h

theorem step_zero_pool (s : thread_pool ρ) (a : action ρ) (h0 : s.mNumThread = 0)
    (hw : s.mThreads = []) (hq : s.mTasks.mQueue = []) :
    (s.step a).mThreads = [] ∧ (s.step a).mTasks.mQueue = [] := by
  cases a with
  | post func args => simp [step, post, h0, hw, hq]
  | assign address value => simp [step, hw, hq]
  | worker i => simp [step, worker, hw, hq]
  | stop =>
    show s.stop.mThreads = [] ∧ s.stop.mTasks.mQueue = []
    rw [stop_eq]
    cases hs : s.stop_at with
    | spinning =>
      by_cases hc : s.mNumThread ≠ s.mNumThreadDone
      · simp only []
        rw [if_pos hc]
        exact ⟨hw, hq⟩
      · simp only []
        rw [if_neg hc]
        exact ⟨hw, hq⟩
    | clearing => exact ⟨hw, rfl⟩
    | _ => exact ⟨hw, hq⟩
  | wait =>
    show s.wait.mThreads = [] ∧ s.wait.mTasks.mQueue = []
    rw [(wait_cases s).1]
    exact ⟨hw, hq⟩

theorem run_zero_pool (acts : List (action ρ)) (s : thread_pool ρ) (h0 : s.mNumThread = 0)
    (hw : s.mThreads = []) (hq : s.mTasks.mQueue = []) :
    (run acts s).mTasks.mQueue = [] := by
  induction acts generalizing s with
  | nil => exact hq
  | cons a acts ih =>
    have h := step_zero_pool s a h0 hw hq
    exact ih (s.step a) ((step_mNumThread s a).1.trans h0) h.1 h.2

/-- C4: on a pool constructed with thread count 0, whatever happened before,
every call of `post` throws `std::runtime_error` before anything is
enqueued: no future is returned, the pool is left as it was, and the task
queue has size 0 before and after. -/
theorem post_without_threads_throws (mem : memory) (acts : List (action ρ)) {α : Type}
    (func : α → Except exception ρ) (args : captured α) :
    ((run acts (init 0 mem)).post func args).1 = .error .runtime_error ∧
    (∀ future : Nat, ((run acts (init 0 mem)).post func args).1 ≠ .ok future) ∧
    ((run acts (init 0 mem)).post func args).2 = run acts (init 0 mem) ∧
    (run acts (init 0 mem) : thread_pool ρ).mTasks.size = 0 ∧
    ((run acts (init 0 mem)).post func args).2.mTasks.size = 0 := by
  have h0 := (run_init_mNumThread 0 mem acts).1
  have hq := run_zero_pool acts (init 0 mem : thread_pool ρ) rfl rfl rfl
  simp [post, h0, thread_safe.queue.size, hq]

/-- C5, as the claim states it, fails: on a pool of one thread, after `stop()`
has run to its end (flag set, worker gone, queue cleared), `post` does not
throw; it returns a future and the queue has size 1. -/
theorem post_after_stop_is_accepted :
    (run [.stop, .worker 0, .stop, .stop] (init 1 (fun _ => int.of 12) : thread_pool int)).stop_at
      = .returned ∧
    (run [.stop, .worker 0, .stop, .stop] (init 1 (fun _ => int.of 12) : thread_pool int)).mStop
      = true ∧
    (run [.stop, .worker 0, .stop, .stop]
      (init 1 (fun _ => int.of 12) : thread_pool int)).mTasks.size = 0 ∧
    ((run [.stop, .worker 0, .stop, .stop] (init 1 (fun _ => int.of 12) : thread_pool int)).post
      foo1 (captured.one ⟨0, .lvalue⟩)).1 = .ok 0 ∧
    ((run [.stop, .worker 0, .stop, .stop] (init 1 (fun _ => int.of 12) : thread_pool int)).post
      foo1 (captured.one ⟨0, .lvalue⟩)).1 ≠ .error .runtime_error ∧
    ((run [.stop, .worker 0, .stop, .stop] (init 1 (fun _ => int.of 12) : thread_pool int)).post
      foo1 (captured.one ⟨0, .lvalue⟩)).2.mTasks.size = 1 := by
  decide

/-- C5, amended: once `stop()` has been called (the stop flag is set), a call
of `post` is refused with `std::runtime_error`, leaving the queue at size 0,
exactly on a pool constructed with thread count 0; on a pool with at least
one thread `post` is not refused: it returns a future and the queue size
grows by one.  The stop flag stays set either way. -/
theorem post_after_stop (N : Nat) (mem : memory) (acts : List (action ρ)) {α : Type}
    (func : α → Except exception ρ) (args : captured α)
    (hstop : (run acts (init N mem) : thread_pool ρ).mStop = true) :
    ((run acts (init N mem)).post func args).2.mStop = true ∧
    (N = 0 →
      ((run acts (init N mem)).post func args).1 = .error .runtime_error ∧
      ((run acts (init N mem)).post func args).2 = run acts (init N mem) ∧
      ((run acts (init N mem)).post func args).2.mTasks.size = 0) ∧
    (0 < N →
      ((run acts (init N mem)).post func args).1
        = .ok (run acts (init N mem) : thread_pool ρ).next_promise ∧
      ((run acts (init N mem)).post func args).2.mTasks.size
        = (run acts (init N mem) : thread_pool ρ).mTasks.size + 1) := by
  have hN := (run_init_mNumThread N mem acts).1
  refine ⟨?_, ?_, ?_⟩
  · by_cases h0 : N = 0
    · rw [post_eq_of_no_threads _ func args (hN.trans h0)]
      exact hstop
    · rw [post_eq_of_threads _ func args (by rw [hN]; exact h0)]
      exact hstop
  · intro h0
    subst h0
    have hq := run_zero_pool acts (init 0 mem : thread_pool ρ) rfl rfl rfl
    rw [post_eq_of_no_threads _ func args hN]
    exact ⟨rfl, rfl, by simp [thread_safe.queue.size, hq]⟩
  · intro h0
    rw [post_eq_of_threads _ func args (by rw [hN]; omega)]
    exact ⟨rfl, by simp [thread_safe.queue.size, thread_safe.queue.push]⟩

theorem post_after_stop_witness :
    (run [.stop, .worker 0, .stop, .stop] (init 1 (fun _ => int.of 12) : thread_pool int)).mStop
      = true ∧
    ((run [.stop, .worker 0, .stop, .stop] (init 1 (fun _ => int.of 12) : thread_pool int)).post
      foo1 (captured.one ⟨0, .lvalue⟩)).1 = .ok 0 :=
  ⟨by decide,
   ((post_after_stop 1 (fun _ => int.of 12) [.stop, .worker 0, .stop, .stop] foo1
      (captured.one ⟨0, .lvalue⟩) (by decide)).2.2 (by decide)).1⟩

theorem run_four_steps (s : thread_pool ρ) (i : Nat) (t : task ρ) (rest : List (task ρ))
    (hw : s.mThreads[i]? = some .loop_test) (hs : s.mStop = false)
    (hq : s.mTasks.mQueue = t :: rest) :
    run [.worker i, .worker i, .worker i, .worker i] s =
      { s with
        mNumThreadDone := atomic_decrement s.mNumThreadDone
        mTasks := ⟨rest⟩
        promises := Function.update s.promises t.promise
          (t.invoke s.mem (s.promises t.promise))
        mThreads := s.mThreads.set i .try_done } := by
  obtain ⟨hi, _⟩ := List.getElem?_eq_some_iff.mp hw
  simp [run, step, worker, hw, hs, hi, hq, thread_safe.queue.front_pop]

theorem run_iteration (s : thread_pool ρ) (i : Nat) (t : task ρ) (rest : List (task ρ))
    (hw : s.mThreads[i]? = some .loop_test) (hs : s.mStop = false)
    (hq : s.mTasks.mQueue = t :: rest) :
    run (iteration i) s =
      { s with
        mNumThreadDone := atomic_increment (atomic_decrement s.mNumThreadDone)
        mTasks := ⟨rest⟩
        promises := Function.update s.promises t.promise
          (t.invoke s.mem (s.promises t.promise))
        mThreads := s.mThreads.set i .loop_test } := by
  obtain ⟨hi, _⟩ := List.getElem?_eq_some_iff.mp hw
  simp [iteration, run, step, worker, hw, hs, hi, hq, thread_safe.queue.front_pop]

theorem counter_restored {N : Nat} {s : thread_pool ρ} (hN : N < SIZE_MOD)
    (h : invariant N s) (i : Nat) (pc : worker_pc ρ) (hi : s.mThreads[i]? = some pc)
    (hpc : pc.in_flight = false) :
    atomic_increment (atomic_decrement s.mNumThreadDone) = s.mNumThreadDone := by
  have hbal := countP_set_balance worker_pc.in_flight s.mThreads i pc .try_done hi
  have hle := List.countP_le_length worker_pc.in_flight (l := s.mThreads.set i .try_done)
  have hc := h.counter
  have hl := h.length
  unfold in_flight at hc
  rw [hpc] at hbal
  have hd : worker_pc.in_flight (worker_pc.try_done : worker_pc ρ) = true := rfl
  rw [hd] at hbal
  simp only [List.length_set] at hle
  simp at hbal
  have h1 : 0 < s.mNumThreadDone := by omega
  have h2 : s.mNumThreadDone < SIZE_MOD := by omega
  rw [atomic_decrement_eq h1 h2, atomic_increment_eq (by omega)]
  omega

theorem post_then_iteration (s : thread_pool ρ) (i : Nat) {α : Type}
    (func : α → Except exception ρ) (args : captured α) (hn : s.mNumThread ≠ 0)
    (hw : s.mThreads[i]? = some .loop_test) (hs : s.mStop = false)
    (hq : s.mTasks.mQueue = []) :
    run (iteration i) (s.post func args).2 =
      { s with
        mNumThreadDone := atomic_increment (atomic_decrement s.mNumThreadDone)
        mTasks := ⟨[]⟩
        promises := Function.update s.promises s.next_promise
          (some (func (args.read s.mem)))
        next_promise := s.next_promise + 1
        mThreads := s.mThreads.set i .loop_test } := by
  rw [post_eq_of_threads s func args hn]
  have key := run_iteration
    ({ s with
        promises := Function.update s.promises s.next_promise none
        next_promise := s.next_promise + 1
        mTasks := s.mTasks.push ⟨s.next_promise, fun mem => func (args.read mem)⟩ } :
      thread_pool ρ)
    i ⟨s.next_promise, fun mem => func (args.read mem)⟩ [] hw hs
    (by simp [thread_safe.queue.push, hq])
  refine key.trans ?_
  simp [task_invoke_none]

theorem threads_of_worker (N : Nat) (mem : memory) (acts : List (action ρ)) (i : Nat)
    (pc : worker_pc ρ) (hw : (run acts (init N mem)).mThreads[i]? = some pc) :
    i < N ∧ (run acts (init N mem) : thread_pool ρ).mNumThread ≠ 0 := by
  obtain ⟨hi, _⟩ := List.getElem?_eq_some_iff.mp hw
  have h := run_init_mNumThread N mem acts
  rw [h.2] at hi
  exact ⟨hi, by rw [h.1]; omega⟩

theorem post_and_run_eq (s : thread_pool ρ) (i : Nat) {α : Type}
    (func : α → Except exception ρ) (args : captured α) (hn : s.mNumThread ≠ 0)
    (hw : s.mThreads[i]? = some .loop_test) (hs : s.mStop = false)
    (hq : s.mTasks.mQueue = []) :
    post_and_run s i func args =
      { s with
        mNumThreadDone := atomic_increment (atomic_decrement s.mNumThreadDone)
        mTasks := ⟨[]⟩
        promises := Function.update s.promises s.next_promise
          (some (func (args.read s.mem)))
        next_promise := s.next_promise + 1
        mThreads := s.mThreads.set i .loop_test } :=
  post_then_iteration s i func args hn hw hs hq

theorem post_then_four_steps (s : thread_pool ρ) (i : Nat) {α : Type}
    (func : α → Except exception ρ) (args : captured α) (hn : s.mNumThread ≠ 0)
    (hw : s.mThreads[i]? = some .loop_test) (hs : s.mStop = false)
    (hq : s.mTasks.mQueue = []) :
    run [.worker i, .worker i, .worker i, .worker i] (s.post func args).2 =
      { s with
        mNumThreadDone := atomic_decrement s.mNumThreadDone
        mTasks := ⟨[]⟩
        promises := Function.update s.promises s.next_promise
          (some (func (args.read s.mem)))
        next_promise := s.next_promise + 1
        mThreads := s.mThreads.set i .try_done } := by
  rw [post_eq_of_threads s func args hn]
  have key := run_four_steps
    ({ s with
        promises := Function.update s.promises s.next_promise none
        next_promise := s.next_promise + 1
        mTasks := s.mTasks.push ⟨s.next_promise, fun mem => func (args.read mem)⟩ } :
      thread_pool ρ)
    i ⟨s.next_promise, fun mem => func (args.read mem)⟩ [] hw hs
    (by simp [thread_safe.queue.push, hq])
  refine key.trans ?_
  simp [task_invoke_none]

theorem worker_frame (s : thread_pool ρ) (i : Nat) :
    (s.worker i).next_promise = s.next_promise ∧
    (s.worker i).wait_at = s.wait_at ∧
    (s.worker i).mem = s.mem ∧
    (s.mTasks.mQueue = [] → (s.worker i).mTasks.mQueue = []) ∧
    (∀ p r, s.promises p = some r → (s.worker i).promises p = some r) := by
  cases hi : s.mThreads[i]? with
  | none => rw [worker_none s i hi]; exact ⟨rfl, rfl, rfl, id, fun _ _ h => h⟩
  | some pc =>
    cases pc with
    | loop_test => rw [worker_loop_test s i hi]; exact ⟨rfl, rfl, rfl, id, fun _ _ h => h⟩
    | try_enter => rw [worker_try_enter s i hi]; exact ⟨rfl, rfl, rfl, id, fun _ _ h => h⟩
    | try_front_pop =>
      cases hq : s.mTasks.mQueue with
      | nil =>
        rw [worker_front_pop_nil s i hi hq]
        exact ⟨rfl, rfl, rfl, fun _ => hq, fun _ _ h => h⟩
      | cons t rest =>
        rw [worker_front_pop_cons s i t rest hi hq]
        exact ⟨rfl, rfl, rfl, fun h => absurd h (List.cons_ne_nil _ _), fun _ _ h => h⟩
    | try_task t =>
      rw [worker_try_task s i t hi]
      refine ⟨rfl, rfl, rfl, id, ?_⟩
      intro p r hp
      by_cases hpt : p = t.promise
      · subst hpt
        simp [Function.update, hp, task_invoke_some]
      · simpa [Function.update, hpt] using hp
    | try_done => rw [worker_try_done s i hi]; exact ⟨rfl, rfl, rfl, id, fun _ _ h => h⟩
    | catch_reset =>
      rw [worker_catch_reset s i hi]; exact ⟨rfl, rfl, rfl, id, fun _ _ h => h⟩
    | exited => rw [worker_exited s i hi]; exact ⟨rfl, rfl, rfl, id, fun _ _ h => h⟩

theorem stop_frame (s : thread_pool ρ) :
    s.stop.next_promise = s.next_promise ∧
    s.stop.wait_at = s.wait_at ∧
    s.stop.mem = s.mem ∧
    s.stop.mThreads = s.mThreads ∧
    (∀ t, t ∈ s.stop.mTasks.mQueue → t ∈ s.mTasks.mQueue) ∧
    (∀ p r, s.promises p = some r → s.stop.promises p = some r) := by
  rw [stop_eq]
  cases h : s.stop_at with
  | not_called => exact ⟨rfl, rfl, rfl, rfl, fun _ h => h, fun _ _ h => h⟩
  | returned => exact ⟨rfl, rfl, rfl, rfl, fun _ h => h, fun _ _ h => h⟩
  | spinning =>
    by_cases hc : s.mNumThread ≠ s.mNumThreadDone
    · simp only []
      rw [if_pos hc]
      exact ⟨rfl, rfl, rfl, rfl, fun _ h => h, fun _ _ h => h⟩
    · simp only []
      rw [if_neg hc]
      exact ⟨rfl, rfl, rfl, rfl, fun _ h => h, fun _ _ h => h⟩
  | clearing =>
    refine ⟨rfl, rfl, rfl, rfl, ?_, ?_⟩
    · intro t ht
      cases ht
    · intro p r hp
      exact destroy_tasks_some _ _ _ _ hp

theorem ready_stable_step (s : thread_pool ρ) (a : action ρ) (p : Nat)
    (r : Except exception ρ) (hp : p < s.next_promise) (hr : s.promises p = some r) :
    p < (s.step a).next_promise ∧ (s.step a).promises p = some r := by
  cases a with
  | post func args =>
    show p < (s.post func args).2.next_promise ∧ (s.post func args).2.promises p = some r
    by_cases h0 : s.mNumThread = 0
    · rw [post_eq_of_no_threads s func args h0]
      exact ⟨hp, hr⟩
    · rw [post_eq_of_threads s func args h0]
      have hne : p ≠ s.next_promise := Nat.ne_of_lt hp
      exact ⟨Nat.lt_succ_of_lt hp, by simpa [Function.update, hne] using hr⟩
  | assign address value => exact ⟨hp, hr⟩
  | worker i =>
    obtain ⟨f1, _, _, _, f5⟩ := worker_frame s i
    exact ⟨by show p < (s.worker i).next_promise; rw [f1]; exact hp, f5 p r hr⟩
  | stop =>
    obtain ⟨f1, _, _, _, _, f6⟩ := stop_frame s
    exact ⟨by show p < s.stop.next_promise; rw [f1]; exact hp, f6 p r hr⟩
  | wait =>
    show p < s.wait.next_promise ∧ s.wait.promises p = some r
    rw [(wait_cases s).1]
    exact ⟨hp, hr⟩

theorem ready_stable (acts : List (action ρ)) (s : thread_pool ρ) (p : Nat)
    (r : Except exception ρ) (hp : p < s.next_promise) (hr : s.promises p = some r) :
    (run acts s).promises p = some r := by
  induction acts generalizing s with
  | nil => exact hr
  | cons a acts ih =>
    obtain ⟨h1, h2⟩ := ready_stable_step s a p r hp hr
    exact ih (s.step a) h1 h2

theorem owns_step (s : thread_pool ρ) (a : action ρ) (p : Nat)
    (c : memory → Except exception ρ) (h : owns p c s) : owns p c (s.step a) := by
  obtain ⟨h1, h2, h3⟩ := h
  cases a with
  | post func args =>
    show owns p c (s.post func args).2
    by_cases h0 : s.mNumThread = 0
    · rw [post_eq_of_no_threads s func args h0]
      exact ⟨h1, h2, h3⟩
    · rw [post_eq_of_threads s func args h0]
      refine ⟨Nat.lt_succ_of_lt h1, ?_, h3⟩
      intro t ht htp
      simp only [thread_safe.queue.push, List.mem_append, List.mem_singleton] at ht
      rcases ht with ht | ht
      · exact h2 t ht htp
      · subst ht
        exact absurd htp (Nat.ne_of_gt h1)
  | assign address value => exact ⟨h1, h2, h3⟩
  | worker i =>
    show owns p c (s.worker i)
    have hset : ∀ new : worker_pc ρ, (∀ t, new = .try_task t → t.promise = p → t.call = c) →
        ∀ t, worker_pc.try_task t ∈ s.mThreads.set i new → t.promise = p → t.call = c := by
      intro new hnew t ht htp
      rcases List.mem_or_eq_of_mem_set ht with h4 | h4
      · exact h3 t h4 htp
      · exact hnew t h4.symm htp
    cases hi : s.mThreads[i]? with
    | none => rw [worker_none s i hi]; exact ⟨h1, h2, h3⟩
    | some pc =>
      cases pc with
      | loop_test =>
        rw [worker_loop_test s i hi]
        refine ⟨h1, h2, hset _ ?_⟩
        intro t ht
        by_cases hs : s.mStop = true <;> simp [hs] at ht
      | try_enter =>
        rw [worker_try_enter s i hi]
        exact ⟨h1, h2, hset _ (fun t ht => by cases ht)⟩
      | try_front_pop =>
        cases hq : s.mTasks.mQueue with
        | nil =>
          rw [worker_front_pop_nil s i hi hq]
          exact ⟨h1, h2, hset _ (fun t ht => by cases ht)⟩
        | cons t0 rest =>
          rw [worker_front_pop_cons s i t0 rest hi hq]
          refine ⟨h1, ?_, hset _ ?_⟩
          · intro t ht htp
            exact h2 t (by rw [hq]; exact List.mem_cons_of_mem _ ht) htp
          · intro t ht htp
            cases ht
            exact h2 t0 (by rw [hq]; exact List.mem_cons_self _ _) htp
      | try_task t0 =>
        rw [worker_try_task s i t0 hi]
        exact ⟨h1, h2, hset _ (fun t ht => by cases ht)⟩
      | try_done =>
        rw [worker_try_done s i hi]
        exact ⟨h1, h2, hset _ (fun t ht => by cases ht)⟩
      | catch_reset =>
        rw [worker_catch_reset s i hi]
        exact ⟨h1, h2, hset _ (fun t ht => by cases ht)⟩
      | exited => rw [worker_exited s i hi]; exact ⟨h1, h2, h3⟩
  | stop =>
    obtain ⟨f1, _, _, f4, f5, _⟩ := stop_frame s
    show owns p c s.stop
    refine ⟨by rw [f1]; exact h1, fun t ht htp => h2 t (f5 t ht) htp, ?_⟩
    rw [f4]
    exact h3
  | wait =>
    show owns p c s.wait
    rw [(wait_cases s).1]
    exact ⟨h1, h2, h3⟩

theorem owns_run (acts : List (action ρ)) (s : thread_pool ρ) (p : Nat)
    (c : memory → Except exception ρ) (h : owns p c s) : owns p c (run acts s) := by
  induction acts generalizing s with
  | nil => exact h
  | cons a acts ih => exact ih (s.step a) (owns_step s a p c h)

theorem owns_post {N : Nat} {s : thread_pool ρ} (h : invariant N s) {α : Type}
    (func : α → Except exception ρ) (args : captured α) (hn : s.mNumThread ≠ 0) :
    owns s.next_promise (fun mem => func (args.read mem)) (s.post func args).2 := by
  rw [post_eq_of_threads s func args hn]
  have hq : ∀ t, t ∈ s.mTasks.mQueue → t.promise ≠ s.next_promise := by
    intro t ht
    have hm : t.promise ∈ s.pending := by
      unfold pending
      exact List.mem_append_left _ (List.mem_map_of_mem _ ht)
    exact Nat.ne_of_lt (h.fresh _ hm).1
  have hw : ∀ t, worker_pc.try_task t ∈ s.mThreads → t.promise ≠ s.next_promise := by
    intro t ht
    have hm : t.promise ∈ s.pending := by
      unfold pending
      exact List.mem_append_right _ ((mem_held_ids _ _).mpr ⟨_, ht, rfl⟩)
    exact Nat.ne_of_lt (h.fresh _ hm).1
  refine ⟨Nat.lt_succ_self _, ?_, fun t ht htp => absurd htp (hw t ht)⟩
  intro t ht htp
  simp only [thread_safe.queue.push, List.mem_append, List.mem_singleton] at ht
  rcases ht with ht | ht
  · exact absurd htp (hq t ht)
  · subst ht
    rfl

theorem run_held_task {N : Nat} {s : thread_pool ρ} (h : invariant N s) (j : Nat)
    (t : task ρ) (hj : s.mThreads[j]? = some (.try_task t)) :
    s.promises t.promise = none ∧
    t.promise < s.next_promise ∧
    (s.worker j).promises t.promise = some (t.call s.mem) ∧
    (s.worker j).mThreads[j]? = some .try_done ∧
    (s.worker j).next_promise = s.next_promise := by
  have hm : t.promise ∈ s.pending := by
    unfold pending
    exact List.mem_append_right _ ((mem_held_ids _ _).mpr ⟨_, List.getElem?_mem hj, rfl⟩)
  obtain ⟨h1, h2⟩ := h.fresh _ hm
  have hlen : j < s.mThreads.length := (List.getElem?_eq_some_iff.mp hj).1
  rw [worker_try_task s j t hj]
  refine ⟨h2, h1, ?_, List.getElem?_set_self hlen, rfl⟩
  simp [h2, task_invoke_none]

theorem run_mem_frame (acts : List (action ρ)) (s : thread_pool ρ) (x : Nat)
    (h : ∀ a ∈ acts, a.assigns x = false) : (run acts s).mem x = s.mem x := by
  induction acts generalizing s with
  | nil => rfl
  | cons a acts ih =>
    have h1 := ih (s.step a) (fun b hb => h b (List.mem_cons_of_mem a hb))
    have h2 : (s.step a).mem x = s.mem x := by
      have ha := h a (List.mem_cons_self a acts)
      cases a with
      | post func args =>
        show (s.post func args).2.mem x = s.mem x
        by_cases h0 : s.mNumThread = 0
        · rw [post_eq_of_no_threads s func args h0]
        · rw [post_eq_of_threads s func args h0]
      | assign address value =>
        have hne : x ≠ address := by
          intro he
          simp [action.assigns, he] at ha
        simp [step, Function.update, hne]
      | worker i =>
        show (s.worker i).mem x = s.mem x
        rw [(worker_frame s i).2.2.1]
      | stop =>
        show s.stop.mem x = s.mem x
        rw [(stop_frame s).2.2.1]
      | wait =>
        show s.wait.mem x = s.mem x
        rw [(wait_cases s).1]
    exact h1.trans h2

/-- C7 fails on the code: the closure of `post` holds references, not
copies.  With `a == 12` at the call `post(foo1, a)` and the producer
assigning `a = 20` before a worker runs the task, the future delivers
`foo1(20) = 19`, not `foo1(12) = 11`. -/
theorem post_reads_argument_when_run :
    ((init 1 (fun _ => int.of 12) : thread_pool int).post foo1 (captured.one ⟨0, .lvalue⟩)).1
      = .ok 0 ∧
    foo1 ((init 1 (fun _ => int.of 12) : thread_pool int).mem 0) = .ok (int.of 11) ∧
    (run [.post foo1 (captured.one ⟨0, .lvalue⟩), .assign 0 (int.of 20),
        .worker 0, .worker 0, .worker 0, .worker 0, .worker 0]
      (init 1 (fun _ => int.of 12) : thread_pool int)).future_get 0 = some (.ok (int.of 19)) ∧
    (run [.post foo1 (captured.one ⟨0, .lvalue⟩), .assign 0 (int.of 20),
        .worker 0, .worker 0, .worker 0, .worker 0, .worker 0]
      (init 1 (fun _ => int.of 12) : thread_pool int)).future_get 0 ≠ some (.ok (int.of 11)) := by
  decide

/-- C9 fails on the code: a worker that passed its loop test before the stop
flag was stored is not counted by `stop()`.  One thread, one queued task;
the worker tests the flag, `stop()` stores it and sees the counter equal to
the thread count, the worker decrements and dequeues the task, `stop()`
clears the queue and returns.  At that moment the queue has size 0 but the
worker holds the dequeued, unfinished task; it runs it afterwards. -/
theorem stop_returns_while_worker_runs :
    (run [.post foo1 (captured.one ⟨0, .lvalue⟩), .worker 0, .stop, .stop,
        .worker 0, .worker 0, .stop]
      (init 1 (fun _ => int.of 12) : thread_pool int)).stop_at = .returned ∧
    (run [.post foo1 (captured.one ⟨0, .lvalue⟩), .worker 0, .stop, .stop,
        .worker 0, .worker 0, .stop]
      (init 1 (fun _ => int.of 12) : thread_pool int)).mTasks.size = 0 ∧
    (run [.post foo1 (captured.one ⟨0, .lvalue⟩), .worker 0, .stop, .stop,
        .worker 0, .worker 0, .stop]
      (init 1 (fun _ => int.of 12) : thread_pool int)).mThreads.map worker_pc.running = [true] ∧
    (run [.post foo1 (captured.one ⟨0, .lvalue⟩), .worker 0, .stop, .stop,
        .worker 0, .worker 0, .stop]
      (init 1 (fun _ => int.of 12) : thread_pool int)).future_get 0 = none ∧
    (run [.post foo1 (captured.one ⟨0, .lvalue⟩), .worker 0, .stop, .stop,
        .worker 0, .worker 0, .stop, .worker 0]
      (init 1 (fun _ => int.of 12) : thread_pool int)).future_get 0 = some (.ok (int.of 11)) := by
  decide

theorem int_of_val (x : Int) (h1 : INT_MIN ≤ x) (h2 : x ≤ INT_MAX) : (int.of x).val = x := by
  unfold int.of INT_MIN INT_MAX at *
  simp only []
  omega

theorem foo1_val (v : int) (h : INT_MIN < v.val) :
    ∃ w : int, foo1 v = .ok w ∧ w.val = v.val - 1 := by
  refine ⟨int.of (v.val - 1), rfl, int_of_val _ ?_ ?_⟩
  · omega
  · have := v.property.2
    omega

theorem try_done_step {N : Nat} {s : thread_pool ρ} (hN : N < SIZE_MOD) (h : invariant N s)
    (j : Nat) (hj : s.mThreads[j]? = some .try_done) :
    (s.worker j).mThreads[j]? = some .loop_test ∧
    (s.worker j).mNumThreadDone = s.mNumThreadDone + 1 ∧
    (s.worker j).in_flight + 1 = s.in_flight := by
  have hlen : j < s.mThreads.length := (List.getElem?_eq_some_iff.mp hj).1
  have hb := countP_set_balance worker_pc.in_flight s.mThreads j _ .loop_test hj
  simp [worker_pc.in_flight] at hb
  have hc := h.counter
  unfold in_flight at hc
  rw [worker_try_done s j hj]
  refine ⟨List.getElem?_set_self hlen, ?_, ?_⟩
  · show atomic_increment s.mNumThreadDone = s.mNumThreadDone + 1
    exact atomic_increment_eq (by omega)
  · simp only [in_flight]
    omega

/-- C6, as the claim states it, fails at the least `int`: with
`a == INT_MIN` the task posted by `post(foo1, a)`, dequeued and run by a
worker, delivers `INT_MAX`, not `a - 1`. -/
theorem post_foo1_wraps_at_INT_MIN :
    ((init 10 (fun _ => int.of (-2147483648)) : thread_pool int).mem 0).val = -2147483648 ∧
    (post_and_run (init 10 (fun _ => int.of (-2147483648)) : thread_pool int) 0 foo1
      (captured.one ⟨0, .lvalue⟩)).future_get 0 = some (.ok (int.of 2147483647)) ∧
    (int.of 2147483647).val = 2147483647 ∧
    (int.of 2147483647).val ≠
      ((init 10 (fun _ => int.of (-2147483648)) : thread_pool int).mem 0).val - 1 := by
  decide

/-- C6, amended: end-to-end result delivery.  On a pool with at least one
thread, in any reachable state `s`, each of the four call shapes
`post(foo1, a)`, `post(std::move(foo1), a)`, `post(foo1, std::move(a))`,
`post(std::move(foo1), std::move(a))` returns a future and enqueues exactly
one task.  Whatever the threads do next, in a state `s1` in which a worker
holds that task its shared state is not ready, and when the worker runs it
while `a` holds an `int` `v` greater than `INT_MIN`, the future yields `v - 1`
and keeps yielding it; `v` is the value `a` had at the call of `post` when no
assignment to `a` was made since. -/
theorem post_foo1_delivers (N : Nat) (mem : memory) (acts acts1 : List (action int))
    (x j : Nat) (t : task int) (v : int)
    (func : int → Except exception int) (a : reference) (s s1 : thread_pool int)
    (hpos : 0 < N) (hN : N < SIZE_MOD)
    (hfunc : func ∈ [foo1, std_move foo1])
    (ha : a ∈ [(⟨x, .lvalue⟩ : reference), reference.move ⟨x, .lvalue⟩])
    (hs : s = run acts (init N mem))
    (hs1 : s1 = run acts1 (s.post func (captured.one a)).2)
    (hhold : s1.mThreads[j]? = some (.try_task t))
    (htp : t.promise = s.next_promise)
    (hv : s1.mem x = v)
    (hmin : INT_MIN < v.val) :
    (s.post func (captured.one a)).1 = .ok s.next_promise ∧
    (s.post func (captured.one a)).2.mTasks.size = s.mTasks.size + 1 ∧
    s1.future_get s.next_promise = none ∧
    (∃ w : int, w.val = v.val - 1 ∧
      (s1.worker j).future_get s.next_promise = some (.ok w) ∧
      ∀ acts2 : List (action int),
        (run acts2 (s1.worker j)).future_get s.next_promise = some (.ok w)) ∧
    ((∀ b ∈ acts1, b.assigns x = false) → v = s.mem x) := by
  subst hs hs1
  have hinv := invariant_run hN acts (invariant_init N mem)
  have hn : (run acts (init N mem) : thread_pool int).mNumThread ≠ 0 := by
    rw [hinv.numThread]
    omega
  have hf : func = foo1 := by
    simp only [List.mem_cons, List.mem_singleton, List.not_mem_nil, or_false, std_move] at hfunc
    rcases hfunc with h | h <;> exact h
  have haddr : a.address = x := by
    simp only [List.mem_cons, List.mem_singleton, List.not_mem_nil, or_false] at ha
    rcases ha with h | h <;> (subst h; rfl)
  subst hf
  have hinv1 := invariant_run hN acts1 (invariant_post hinv foo1 (captured.one a))
  have hown := owns_run acts1 _ _ _ (owns_post hinv foo1 (captured.one a) hn)
  obtain ⟨r1, r2, r3, _, r5⟩ := run_held_task hinv1 j t hhold
  have hcall := hown.2.2 t (List.getElem?_mem hhold) htp
  obtain ⟨w, hw1, hw2⟩ := foo1_val v hmin
  have hres : t.call
      (run acts1 ((run acts (init N mem)).post foo1 (captured.one a)).2).mem = .ok w := by
    refine (congrFun hcall _).trans ?_
    show foo1 ((run acts1 _).mem a.address) = .ok w
    rw [haddr, hv]
    exact hw1
  rw [htp] at r1 r2 r3
  rw [hres] at r3
  have hp := post_eq_of_threads (run acts (init N mem)) foo1 (captured.one a) hn
  refine ⟨by rw [hp], ?_, r1, ⟨w, hw2, r3, ?_⟩, ?_⟩
  · rw [hp]
    simp [thread_safe.queue.size, thread_safe.queue.push]
  · intro acts2
    exact ready_stable acts2 _ _ _ (by rw [r5]; exact r2) r3
  · intro hna
    rw [← hv, run_mem_frame acts1 _ x hna, hp]

theorem post_foo1_delivers_witness :
    ((run [.worker 0, .worker 0, .worker 0]
      ((init 10 (fun _ => int.of 12) : thread_pool int).post foo1
        (captured.one ⟨0, .lvalue⟩)).2).worker 0).future_get 0 = some (.ok (int.of 11)) ∧
    ((run [.worker 0, .worker 0, .worker 0]
      ((init 10 (fun _ => int.of 12) : thread_pool int).post (std_move foo1)
        (captured.one (reference.move ⟨0, .lvalue⟩))).2).worker 0).future_get 0
      = some (.ok (int.of 11)) ∧
    (∃ w : int, w.val = (int.of 12).val - 1 ∧
      ((run [.worker 0, .worker 0, .worker 0]
        ((init 10 (fun _ => int.of 12) : thread_pool int).post foo1
          (captured.one ⟨0, .lvalue⟩)).2).worker 0).future_get 0 = some (.ok w)) :=
  have h := post_foo1_delivers 10 (fun _ => int.of 12) [] [.worker 0, .worker 0, .worker 0]
    0 0 ⟨0, fun mem => foo1 (mem 0)⟩ (int.of 12) foo1 ⟨0, .lvalue⟩ _ _
    (by decide) (by decide) (by simp) (by simp) rfl rfl rfl rfl rfl (by decide)
  ⟨by decide, by decide, h.2.2.2.1.imp (fun _ hw => ⟨hw.1, hw.2.1⟩)⟩

theorem undisturbed_failure_pass (N : Nat) (mem : memory) (acts : List (action ρ))
    (i : Nat) {α β : Type} (func : α → Except exception ρ) (args : captured α)
    (e : exception) (g : β → Except exception ρ) (args2 : captured β) (r : ρ)
    (hN : N < SIZE_MOD)
    (hw : (run acts (init N mem)).mThreads[i]? = some .loop_test)
    (hs : (run acts (init N mem)).mStop = false)
    (hq : (run acts (init N mem)).mTasks.mQueue = [])
    (hf : func (args.read (run acts (init N mem) : thread_pool ρ).mem) = .error e)
    (hg : g (args2.read (run acts (init N mem) : thread_pool ρ).mem) = .ok r) :
    0 < N ∧
    ((run acts (init N mem)).post func args).1
      = .ok (run acts (init N mem) : thread_pool ρ).next_promise ∧
    (post_and_run (run acts (init N mem)) i func args).future_get
      (run acts (init N mem) : thread_pool ρ).next_promise = some (.error e) ∧
    (∀ v : ρ, (post_and_run (run acts (init N mem)) i func args).future_get
      (run acts (init N mem) : thread_pool ρ).next_promise ≠ some (.ok v)) ∧
    (run [.worker i, .worker i, .worker i, .worker i]
      ((run acts (init N mem)).post func args).2).mThreads[i]? = some .try_done ∧
    (post_and_run (run acts (init N mem)) i func args).mThreads[i]? = some .loop_test ∧
    (post_and_run (run acts (init N mem)) i func args).mNumThreadDone
      = (run acts (init N mem) : thread_pool ρ).mNumThreadDone ∧
    ((post_and_run (run acts (init N mem)) i func args).post g args2).1
      = .ok ((run acts (init N mem) : thread_pool ρ).next_promise + 1) ∧
    (post_and_run (post_and_run (run acts (init N mem)) i func args) i g args2).future_get
      ((run acts (init N mem) : thread_pool ρ).next_promise + 1) = some (.ok r) ∧
    (post_and_run (post_and_run (run acts (init N mem)) i func args) i g args2).future_get
      (run acts (init N mem) : thread_pool ρ).next_promise = some (.error e) ∧
    (post_and_run (post_and_run (run acts (init N mem)) i func args) i g args2).mNumThreadDone
      = (run acts (init N mem) : thread_pool ρ).mNumThreadDone := by
  obtain ⟨hi, hn⟩ := threads_of_worker N mem acts i _ hw
  have hlen : i < (run acts (init N mem) : thread_pool ρ).mThreads.length :=
    (List.getElem?_eq_some_iff.mp hw).1
  have hinv := invariant_run hN acts (invariant_init N mem)
  have hc := counter_restored hN hinv i _ hw rfl
  have h4 := post_then_four_steps _ i func args hn hw hs hq
  have h1 := post_and_run_eq _ i func args hn hw hs hq
  have hp := post_eq_of_threads _ func args hn
  rw [hc, hf] at h1
  rw [hf] at h4
  have hw1 : (post_and_run (run acts (init N mem)) i func args).mThreads[i]?
      = some .loop_test := by
    rw [h1]
    exact List.getElem?_set_self hlen
  have hn1 : (post_and_run (run acts (init N mem)) i func args).mNumThread ≠ 0 := by
    rw [h1]
    exact hn
  have hs1 : (post_and_run (run acts (init N mem)) i func args).mStop = false := by
    rw [h1]
    exact hs
  have hq1 : (post_and_run (run acts (init N mem)) i func args).mTasks.mQueue = [] := by
    rw [h1]
  have hinv1 : invariant N (post_and_run (run acts (init N mem)) i func args) := by
    unfold post_and_run
    exact invariant_run hN _ (invariant_post hinv func args)
  have hc1 := counter_restored hN hinv1 i _ hw1 rfl
  have hp1 := post_eq_of_threads _ g args2 hn1
  have h2 := post_and_run_eq _ i g args2 hn1 hw1 hs1 hq1
  rw [hc1] at h2
  have hmem1 : (post_and_run (run acts (init N mem)) i func args).mem
      = (run acts (init N mem) : thread_pool ρ).mem := by
    rw [h1]
  have hnext1 : (post_and_run (run acts (init N mem)) i func args).next_promise
      = (run acts (init N mem) : thread_pool ρ).next_promise + 1 := by
    rw [h1]
  have hdone1 : (post_and_run (run acts (init N mem)) i func args).mNumThreadDone
      = (run acts (init N mem) : thread_pool ρ).mNumThreadDone := by
    rw [h1]
  have hprom1 : (post_and_run (run acts (init N mem)) i func args).promises
      = Function.update (run acts (init N mem) : thread_pool ρ).promises
          (run acts (init N mem) : thread_pool ρ).next_promise (some (.error e)) := by
    rw [h1]
  rw [hmem1, hg, hnext1] at h2
  refine ⟨by omega, ?_, ?_, ?_, ?_, hw1, hdone1, ?_, ?_, ?_, ?_⟩
  · rw [hp]
  · rw [future_get, hprom1]
    simp
  · intro v
    rw [future_get, hprom1]
    simp
  · rw [h4]
    exact List.getElem?_set_self hlen
  · rw [hp1, hnext1]
  · rw [future_get, h2, hprom1]
    simp
  · rw [future_get, h2, hprom1]
    simp
  · rw [h2, hdone1]

/-- C8: task failure is contained.  On a pool with at least one thread, in
any reachable state `s`, `post` of a callable returns a future.  Whatever the
threads do next, at the moment a worker holds that task its shared state is
not ready; when the worker runs it and the callable throws `e`, the shared
state holds `e` and no value (`get` rethrows `e`), and it keeps `e` from
then on; the worker has left `task()` normally: it stands in the `try`
block before `mNumThreadDone++`, not in the handler, and its next step adds
exactly one to the counter and takes it back to its loop test, so that the
counter and the workers between decrement and increment add up to the thread
count as in every state.  The pool stays usable: a later `post` returns a
future, and a worker that dequeued that task and runs it delivers the
result of its callable.  In particular, from a state with a worker waiting
at its loop test, no stop requested and an empty queue, the worker's
undisturbed pass after the `post` stores `e`, leaves the counter at the value
it had, and a second `post` followed by a second pass delivers the value of
the second callable. -/
theorem task_failure_is_contained (N : Nat) (mem : memory) (acts acts1 : List (action ρ))
    (j : Nat) (t : task ρ) {α : Type} (func : α → Except exception ρ) (args : captured α)
    (e : exception) (s s1 : thread_pool ρ) (hpos : 0 < N) (hN : N < SIZE_MOD)
    (hs : s = run acts (init N mem))
    (hs1 : s1 = run acts1 (s.post func args).2)
    (hhold : s1.mThreads[j]? = some (.try_task t))
    (htp : t.promise = s.next_promise)
    (hf : func (args.read s1.mem) = .error e) :
    (s.post func args).1 = .ok s.next_promise ∧
    s1.future_get s.next_promise = none ∧
    (s1.worker j).future_get s.next_promise = some (.error e) ∧
    (∀ v : ρ, (s1.worker j).future_get s.next_promise ≠ some (.ok v)) ∧
    (s1.worker j).mThreads[j]? = some .try_done ∧
    (∀ (acts2 : List (action ρ)) (s2 : thread_pool ρ), s2 = run acts2 (s1.worker j) →
      s2.future_get s.next_promise = some (.error e) ∧
      s2.mNumThreadDone + s2.in_flight = N ∧
      (s2.mThreads[j]? = some .try_done →
        (s2.worker j).mThreads[j]? = some .loop_test ∧
        (s2.worker j).mNumThreadDone = s2.mNumThreadDone + 1 ∧
        (s2.worker j).in_flight + 1 = s2.in_flight) ∧
      ∀ (β : Type) (g : β → Except exception ρ) (args2 : captured β)
        (acts3 : List (action ρ)) (k : Nat) (u : task ρ) (s3 : thread_pool ρ),
        s3 = run acts3 (s2.post g args2).2 →
        (s2.post g args2).1 = .ok s2.next_promise ∧
        (s3.mThreads[k]? = some (.try_task u) →
          u.promise = s2.next_promise →
          (s3.worker k).future_get s2.next_promise = some (g (args2.read s3.mem)))) ∧
    (∀ (i : Nat) (β : Type) (g : β → Except exception ρ) (args2 : captured β) (r : ρ),
      s.mThreads[i]? = some .loop_test →
      s.mStop = false →
      s.mTasks.mQueue = [] →
      func (args.read s.mem) = .error e →
      g (args2.read s.mem) = .ok r →
      (post_and_run s i func args).future_get s.next_promise = some (.error e) ∧
      (post_and_run s i func args).mThreads[i]? = some .loop_test ∧
      (post_and_run s i func args).mNumThreadDone = s.mNumThreadDone ∧
      (post_and_run (post_and_run s i func args) i g args2).future_get (s.next_promise + 1)
        = some (.ok r) ∧
      (post_and_run (post_and_run s i func args) i g args2).future_get s.next_promise
        = some (.error e) ∧
      (post_and_run (post_and_run s i func args) i g args2).mNumThreadDone
        = s.mNumThreadDone) := by
  subst hs hs1
  have hinv := invariant_run hN acts (invariant_init N mem)
  have hn : (run acts (init N mem) : thread_pool ρ).mNumThread ≠ 0 := by
    rw [hinv.numThread]
    omega
  have hinv1 := invariant_run hN acts1 (invariant_post hinv func args)
  have hown := owns_run acts1 _ _ _ (owns_post hinv func args hn)
  obtain ⟨r1, r2, r3, r4, r5⟩ := run_held_task hinv1 j t hhold
  have hcall := hown.2.2 t (List.getElem?_mem hhold) htp
  have hres : t.call (run acts1 ((run acts (init N mem)).post func args).2).mem
      = .error e := (congrFun hcall _).trans hf
  rw [htp] at r1 r2 r3
  rw [hres] at r3
  have hp := post_eq_of_threads (run acts (init N mem)) func args hn
  have hinvw := invariant_worker hN hinv1 j
  refine ⟨by rw [hp], r1, r3, ?_, r4, ?_, ?_⟩
  · intro v hv
    rw [future_get, r3] at hv
    cases hv
  · intro acts2 s2 hs2
    subst hs2
    have hinv2 := invariant_run hN acts2 hinvw
    refine ⟨ready_stable acts2 _ _ _ (by rw [r5]; exact r2) r3, hinv2.counter, ?_, ?_⟩
    · intro hj
      exact try_done_step hN hinv2 j hj
    · intro β g args2 acts3 k u s3 hs3
      subst hs3
      have hn2 : (run acts2
          ((run acts1 ((run acts (init N mem)).post func args).2).worker j)).mNumThread
          ≠ 0 := by
        rw [hinv2.numThread]
        omega
      refine ⟨by rw [post_eq_of_threads _ g args2 hn2], ?_⟩
      intro hk hup
      have hinv3 := invariant_run hN acts3 (invariant_post hinv2 g args2)
      have hown3 := owns_run acts3 _ _ _ (owns_post hinv2 g args2 hn2)
      obtain ⟨_, _, q3, _, _⟩ := run_held_task hinv3 k u hk
      have hcall3 := hown3.2.2 u (List.getElem?_mem hk) hup
      rw [hup] at q3
      rw [future_get, q3]
      exact congrArg some (congrFun hcall3 _)
  · intro i β g args2 r hw hs hq hf0 hg
    have h := undisturbed_failure_pass N mem acts i func args e g args2 r hN hw hs hq hf0 hg
    exact ⟨h.2.2.1, h.2.2.2.2.2.1, h.2.2.2.2.2.2.1, h.2.2.2.2.2.2.2.2.1,
      h.2.2.2.2.2.2.2.2.2.1, h.2.2.2.2.2.2.2.2.2.2⟩

theorem task_failure_is_contained_witness :
    ((run [.worker 0, .worker 0, .worker 0]
      ((init 2 (fun _ => int.of 12) : thread_pool int).post
        (fun _ : int => (Except.error (exception.user 7) : Except exception int))
        (captured.one ⟨0, .lvalue⟩)).2).worker 0).future_get 0 = some (.error (.user 7)) ∧
    ((run [.worker 0, .worker 0, .worker 0]
      ((init 2 (fun _ => int.of 12) : thread_pool int).post
        (fun _ : int => (Except.error (exception.user 7) : Except exception int))
        (captured.one ⟨0, .lvalue⟩)).2).worker 0).mThreads[0]? = some .try_done :=
  have h := task_failure_is_contained 2 (fun _ => int.of 12) ([] : List (action int))
    [.worker 0, .worker 0, .worker 0] 0
    ⟨0, fun _ => (Except.error (exception.user 7) : Except exception int)⟩
    (fun _ : int => (Except.error (exception.user 7) : Except exception int))
    (captured.one ⟨0, .lvalue⟩) (.user 7) _ _ (by decide) (by decide) rfl rfl rfl rfl rfl
  ⟨h.2.2.1, h.2.2.2.2.1⟩

end thread_pool
end dumplings
